import Mathlib

/-!
Verification of the line-storage core of the micro editor fork.

The Go source is shallowly embedded: line contents are lists of bytes
(natural numbers), a `Loc` is a (column, line) pair, and each mutating
method of `LineArray` / `Buffer` becomes a pure function from the old
store to the new one.  UTF-8 handling follows Go's `utf8.DecodeRune`:
only the byte *width* of the first rune matters to the functions under
study, so `decodeRuneSize` models exactly that width.
-/

namespace Micro

/-- A byte, as a natural number (the 0..255 bound is irrelevant here). -/
abbrev Byte := Nat

/-- The contents of a line (Go `[]byte`). -/
abbrev Bytes := List Nat

/-- The (column, line) coordinate used throughout the source (`Loc{X, Y}`). -/
structure Loc where
  X : Nat
  Y : Nat
deriving DecidableEq

/-- Byte width of the first UTF-8 rune of `txt`, following Go's
`utf8.DecodeRune`: an empty input has width 0, ASCII bytes and
invalid or truncated sequences have width 1, and valid multi-byte
sequences have their encoded width (2, 3 or 4).  The acceptance
ranges for the first continuation byte mirror Go's `utf8` first-byte
table (`0xE0`, `0xED`, `0xF0` and `0xF4` have special ranges). -/
def decodeRuneSize : Bytes → Nat
  | [] => 0
  | b0 :: rest =>
    if b0 < 0x80 then 1
    else if b0 < 0xC2 then 1
    else if b0 < 0xE0 then
      match rest with
      | b1 :: _ => if 0x80 ≤ b1 ∧ b1 ≤ 0xBF then 2 else 1
      | [] => 1
    else if b0 < 0xF0 then
      match rest with
      | b1 :: b2 :: _ =>
        if b0 = 0xE0 then
          if (0xA0 ≤ b1 ∧ b1 ≤ 0xBF) ∧ (0x80 ≤ b2 ∧ b2 ≤ 0xBF) then 3 else 1
        else if b0 = 0xED then
          if (0x80 ≤ b1 ∧ b1 ≤ 0x9F) ∧ (0x80 ≤ b2 ∧ b2 ≤ 0xBF) then 3 else 1
        else
          if (0x80 ≤ b1 ∧ b1 ≤ 0xBF) ∧ (0x80 ≤ b2 ∧ b2 ≤ 0xBF) then 3 else 1
      | _ => 1
    else if b0 < 0xF5 then
      match rest with
      | b1 :: b2 :: b3 :: _ =>
        if b0 = 0xF0 then
          if (0x90 ≤ b1 ∧ b1 ≤ 0xBF) ∧ (0x80 ≤ b2 ∧ b2 ≤ 0xBF) ∧
              (0x80 ≤ b3 ∧ b3 ≤ 0xBF) then 4 else 1
        else if b0 = 0xF4 then
          if (0x80 ≤ b1 ∧ b1 ≤ 0x8F) ∧ (0x80 ≤ b2 ∧ b2 ≤ 0xBF) ∧
              (0x80 ≤ b3 ∧ b3 ≤ 0xBF) then 4 else 1
        else
          if (0x80 ≤ b1 ∧ b1 ≤ 0xBF) ∧ (0x80 ≤ b2 ∧ b2 ≤ 0xBF) ∧
              (0x80 ≤ b3 ∧ b3 ≤ 0xBF) then 4 else 1
      | _ => 1
    else 1

theorem decodeRuneSize_pos (b0 : Nat) (rest : Bytes) :
    1 ≤ decodeRuneSize (b0 :: rest) := by
  simp only [decodeRuneSize]
  repeat' split
  all_goals omega

theorem decodeRuneSize_le (b0 : Nat) (rest : Bytes) :
    decodeRuneSize (b0 :: rest) ≤ rest.length + 1 := by
  rcases rest with _ | ⟨b1, _ | ⟨b2, _ | ⟨b3, r⟩⟩⟩ <;>
    simp only [decodeRuneSize, List.length_cons, List.length_nil] <;>
    (repeat' split) <;> omega

set_option maxHeartbeats 2000000 in
/-- Truncating a byte list anywhere at or beyond the width of its first
rune does not change that width: the decision for a width-`s` result
only inspects the first `s` bytes, and every failure (invalid or
truncated sequence, width 1) stays a failure on a shorter prefix. -/
theorem decodeRuneSize_take (b0 : Nat) (rest : Bytes) (t : Nat)
    (h : decodeRuneSize (b0 :: rest) ≤ t) :
    decodeRuneSize ((b0 :: rest).take t) = decodeRuneSize (b0 :: rest) := by
  have hpos := decodeRuneSize_pos b0 rest
  rcases rest with _ | ⟨b1, _ | ⟨b2, _ | ⟨b3, r⟩⟩⟩
  · rcases t with _ | t
    · omega
    · simp [List.take]
  · rcases t with _ | _ | t
    · omega
    · simp only [List.take]
      simp only [decodeRuneSize] at h ⊢
      split_ifs at h ⊢ <;> omega
    · simp [List.take]
  · rcases t with _ | _ | _ | t
    · omega
    · simp only [List.take]
      simp only [decodeRuneSize] at h ⊢
      split_ifs at h ⊢ <;> omega
    · simp only [List.take]
      simp only [decodeRuneSize] at h ⊢
      split_ifs at h ⊢ <;> omega
    · simp [List.take]
  · rcases t with _ | _ | _ | _ | t
    · omega
    · simp only [List.take]
      simp only [decodeRuneSize] at h ⊢
      split_ifs at h ⊢ <;> omega
    · simp only [List.take]
      simp only [decodeRuneSize] at h ⊢
      split_ifs at h ⊢ <;> omega
    · simp only [List.take]
      simp only [decodeRuneSize] at h ⊢
      split_ifs at h ⊢ <;> omega
    · simp only [List.take]
      simp only [decodeRuneSize]

theorem length_drop_decodeRuneSize_lt (b : Nat) (rest : Bytes) :
    ((b :: rest).drop (decodeRuneSize (b :: rest))).length <
      (b :: rest).length := by
  have := decodeRuneSize_pos b rest
  simp only [List.length_drop, List.length_cons]
  omega

/-- Number of runes in `txt` (Go `utf8.RuneCount`), obtained by decoding
runes sequentially from the front. -/
def runeCount : Bytes → Nat
  | [] => 0
  | b :: rest =>
    1 + runeCount ((b :: rest).drop (decodeRuneSize (b :: rest)))
termination_by l => l.length
decreasing_by apply length_drop_decodeRuneSize_lt

/-- Translation of a rune offset `n` into a byte offset within `txt`
(source `runeToByteIndex`): `n == 0` short-circuits to 0; otherwise
runes are decoded sequentially, accumulating their byte widths, until
`n` runes have been consumed or the bytes run out. -/
def runeToByteIndex : Nat → Bytes → Nat
  | 0, _ => 0
  | _ + 1, [] => 0
  | n + 1, b :: rest =>
    decodeRuneSize (b :: rest) +
      runeToByteIndex n ((b :: rest).drop (decodeRuneSize (b :: rest)))
termination_by _ l => l.length
decreasing_by apply length_drop_decodeRuneSize_lt

theorem runeCount_nil : runeCount [] = 0 := by simp [runeCount]

theorem runeCount_cons (b : Nat) (rest : Bytes) :
    runeCount (b :: rest) =
      1 + runeCount ((b :: rest).drop (decodeRuneSize (b :: rest))) := by
  rw [runeCount]

theorem runeToByteIndex_zero (txt : Bytes) : runeToByteIndex 0 txt = 0 := by
  rw [runeToByteIndex]

theorem runeToByteIndex_nil (n : Nat) : runeToByteIndex n [] = 0 := by
  cases n with
  | zero => rw [runeToByteIndex]
  | succ n => rw [runeToByteIndex]

theorem runeToByteIndex_succ (n : Nat) (b : Nat) (rest : Bytes) :
    runeToByteIndex (n + 1) (b :: rest) =
      decodeRuneSize (b :: rest) +
        runeToByteIndex n ((b :: rest).drop (decodeRuneSize (b :: rest))) := by
  rw [runeToByteIndex]

theorem runeCount_le_length (l : Bytes) : runeCount l ≤ l.length := by
  induction l using runeCount.induct with
  | case1 => simp [runeCount]
  | case2 b rest ih =>
    rw [runeCount_cons]
    have h1 := decodeRuneSize_pos b rest
    simp only [List.length_drop, List.length_cons] at ih ⊢
    omega

theorem runeToByteIndex_le_length (n : Nat) (l : Bytes) :
    runeToByteIndex n l ≤ l.length := by
  induction n generalizing l with
  | zero => rw [runeToByteIndex_zero]; exact Nat.zero_le _
  | succ n ih =>
    cases l with
    | nil => rw [runeToByteIndex_nil]; exact Nat.le_refl _
    | cons b rest =>
      rw [runeToByteIndex_succ]
      have h1 := decodeRuneSize_le b rest
      have h2 := ih ((b :: rest).drop (decodeRuneSize (b :: rest)))
      simp only [List.length_drop, List.length_cons] at *
      omega

/-- When at least as many runes are requested as the text holds, the
accumulated byte offset is the full byte length of the text. -/
theorem runeToByteIndex_full (n : Nat) (l : Bytes) (h : runeCount l ≤ n) :
    runeToByteIndex n l = l.length := by
  induction n generalizing l with
  | zero =>
    cases l with
    | nil => rw [runeToByteIndex_zero]; rfl
    | cons b rest => rw [runeCount_cons] at h; omega
  | succ n ih =>
    cases l with
    | nil => rw [runeToByteIndex_nil]; rfl
    | cons b rest =>
      rw [runeToByteIndex_succ]
      rw [runeCount_cons] at h
      rw [ih ((b :: rest).drop (decodeRuneSize (b :: rest))) (by omega)]
      have h1 := decodeRuneSize_le b rest
      simp only [List.length_drop, List.length_cons]
      omega

/-- Core of C1: for `k` at most the rune length, the byte prefix of
length `runeToByteIndex k txt` contains exactly `k` runes. -/
theorem runeCount_take_runeToByteIndex (l : Bytes) (k : Nat)
    (h : k ≤ runeCount l) :
    runeCount (l.take (runeToByteIndex k l)) = k := by
  induction k generalizing l with
  | zero => rw [runeToByteIndex_zero, List.take_zero, runeCount_nil]
  | succ k ih =>
    cases l with
    | nil => rw [runeCount_nil] at h; omega
    | cons b rest =>
      rw [runeToByteIndex_succ]
      rw [runeCount_cons] at h
      have hspos := decodeRuneSize_pos b rest
      have htake :
          decodeRuneSize ((b :: rest).take (decodeRuneSize (b :: rest) +
            runeToByteIndex k ((b :: rest).drop (decodeRuneSize (b :: rest))))) =
          decodeRuneSize (b :: rest) :=
        decodeRuneSize_take b rest _ (by omega)
      have hsplit : decodeRuneSize (b :: rest) +
          runeToByteIndex k ((b :: rest).drop (decodeRuneSize (b :: rest))) =
          (decodeRuneSize (b :: rest) - 1 +
            runeToByteIndex k ((b :: rest).drop (decodeRuneSize (b :: rest)))) + 1 := by
        omega
      rw [hsplit] at htake ⊢
      rw [List.take_succ_cons] at htake ⊢
      rw [runeCount_cons, htake]
      have hdt :
          (b :: rest.take (decodeRuneSize (b :: rest) - 1 +
              runeToByteIndex k ((b :: rest).drop (decodeRuneSize (b :: rest))))).drop
            (decodeRuneSize (b :: rest)) =
          ((b :: rest).drop (decodeRuneSize (b :: rest))).take
            (runeToByteIndex k ((b :: rest).drop (decodeRuneSize (b :: rest)))) := by
        rw [← List.take_succ_cons, ← hsplit]
        rw [List.drop_take]
        congr 1
        omega
      rw [hdt, ih _ (by omega)]
      omega

/-- C1: for every line byte sequence and every rune offset `k` from 0 to
the line's rune length, `runeToByteIndex k` returns a byte offset whose
byte prefix contains exactly `k` runes, stepping over multi-byte UTF-8
sequences one rune at a time; `k = 0` yields byte offset 0. -/
theorem claim_C1_runeToByteIndex_correct (txt : Bytes) (k : Nat)
    (h : k ≤ runeCount txt) :
    runeCount (txt.take (runeToByteIndex k txt)) = k ∧
      runeToByteIndex 0 txt = 0 :=
  ⟨runeCount_take_runeToByteIndex txt k h, runeToByteIndex_zero txt⟩

/-- Witness for C1 on the line "héllo" mixing single-byte and
multi-byte runes (`é` is the two-byte sequence 0xC3 0xA9), at rune
offset `k = 2`. -/
theorem claim_C1_witness :
    2 ≤ runeCount [104, 195, 169, 108, 108, 111] ∧
      (runeCount (([104, 195, 169, 108, 108, 111] : Bytes).take
          (runeToByteIndex 2 [104, 195, 169, 108, 108, 111])) = 2 ∧
        runeToByteIndex 0 [104, 195, 169, 108, 108, 111] = 0) := by
  have h : 2 ≤ runeCount [104, 195, 169, 108, 108, 111] := by
    simp [runeCount_cons, runeCount_nil, decodeRuneSize]
  exact ⟨h, claim_C1_runeToByteIndex_correct [104, 195, 169, 108, 108, 111] 2 h⟩

section ListHelpers

variable {α : Type _}

theorem getD_set_self (l : List α) (i : Nat) (a d : α) (h : i < l.length) :
    (l.set i a).getD i d = a := by
  induction l generalizing i with
  | nil => simp at h
  | cons x l ih =>
    cases i with
    | zero => simp
    | succ i =>
      simp only [List.set_cons_succ, List.getD_cons_succ]
      exact ih i (by simpa using h)

theorem getD_set_ne (l : List α) (i j : Nat) (a d : α) (h : i ≠ j) :
    (l.set i a).getD j d = l.getD j d := by
  induction l generalizing i j with
  | nil => simp
  | cons x l ih =>
    cases i with
    | zero =>
      cases j with
      | zero => exact absurd rfl h
      | succ j => simp
    | succ i =>
      cases j with
      | zero => simp
      | succ j =>
        simp only [List.set_cons_succ, List.getD_cons_succ]
        exact ih i j (by omega)

theorem set_getD_self (l : List α) (i : Nat) (d : α) (h : i < l.length) :
    l.set i (l.getD i d) = l := by
  induction l generalizing i with
  | nil => simp at h
  | cons x l ih =>
    cases i with
    | zero => simp
    | succ i =>
      simp only [List.getD_cons_succ, List.set_cons_succ]
      rw [ih i (by simpa using h)]

theorem set_append_len (A : List α) (a c : α) (B : List α) :
    (A ++ a :: B).set A.length c = A ++ c :: B := by
  induction A with
  | nil => rfl
  | cons x A ih => simpa using ih

theorem getD_append_len (A : List α) (a : α) (B : List α) (d : α) :
    (A ++ a :: B).getD A.length d = a := by
  induction A with
  | nil => simp
  | cons x A ih => simpa using ih

theorem take_append_len (A B : List α) (n : Nat) (h : A.length = n) :
    (A ++ B).take n = A := by
  subst h; exact List.take_left A B

theorem drop_append_len (A B : List α) (n : Nat) (h : A.length = n) :
    (A ++ B).drop n = B := by
  subst h; exact List.drop_left A B

theorem getD_append_len_eq (A : List α) (a : α) (B : List α) (d : α)
    (n : Nat) (h : A.length = n) : (A ++ a :: B).getD n d = a := by
  subst h; exact getD_append_len A a B d

theorem set_append_len_eq (A : List α) (a c : α) (B : List α) (n : Nat)
    (h : A.length = n) : (A ++ a :: B).set n c = A ++ c :: B := by
  subst h; exact set_append_len A a c B

theorem take_splice (A : List α) (c : α) (B : List α) :
    (A ++ c :: B).take (A.length + 1) = A ++ [c] := by
  rw [List.take_append 1]
  simp

theorem drop_splice (A : List α) (c : α) (B : List α) :
    (A ++ c :: B).drop (A.length + 1) = B := by
  rw [List.drop_append 1]
  simp

end ListHelpers

/-- Opaque highlight state slot (`highlight.State` in the source): the
store operations only ever copy it between lines or reset it to Go
`nil`, modelled as `none`. -/
abbrev HlState := Option Nat

/-- A stored line (source `Line`): byte contents, opaque highlight
state, opaque match cache (field `match` in Go, a Lean keyword, hence
`mtch`) and the rehighlight flag. -/
structure Line where
  data : Bytes
  state : HlState
  mtch : HlState
  rehighlight : Bool
deriving DecidableEq

/-- Default `Line` for out-of-range reads in the model; the Go source
panics there instead, so every theorem carries the validity hypotheses
that keep reads in range. -/
def dfltLine : Line := ⟨[], none, none, false⟩

/-- The `lines` slice of a `LineArray`. -/
abbrev Lines := List Line

/-- The byte contents of line `y`. -/
def lineData (lines : Lines) (y : Nat) : Bytes := (lines.getD y dfltLine).data

/-- Updates line `y` in place (Go `la.lines[y] = f(la.lines[y])`). -/
def modifyLine (y : Nat) (f : Line → Line) (lines : Lines) : Lines :=
  lines.set y (f (lines.getD y dfltLine))

/-- Updates the byte contents of line `y` in place. -/
def setLineData (y : Nat) (f : Bytes → Bytes) (lines : Lines) : Lines :=
  modifyLine y (fun l => { l with data := f l.data }) lines

/-- Source `NewlineBelow`: inserts a fresh empty line below line `y`,
carrying line `y`'s highlight state (`Line{"", la.lines[y].state, nil,
false}`); the temporary `" "` line appended by the Go code is always
overwritten or shifted away before the function returns. -/
def NewlineBelow (y : Nat) (lines : Lines) : Lines :=
  lines.take (y + 1) ++
    ⟨[], (lines.getD y dfltLine).state, none, false⟩ :: lines.drop (y + 1)

/-- Source `insertByte`: splices one byte into line `pos.Y` at byte
offset `pos.X`. -/
def insertByte (pos : Loc) (value : Byte) (lines : Lines) : Lines :=
  setLineData pos.Y (fun d => d.take pos.X ++ value :: d.drop pos.X) lines

/-- Source `DeleteToEnd`: truncates line `pos.Y` to its first `pos.X`
bytes. -/
def DeleteToEnd (pos : Loc) (lines : Lines) : Lines :=
  setLineData pos.Y (fun d => d.take pos.X) lines

/-- Source `DeleteFromStart`: drops the bytes of line `y` up to and
including byte index `x`; `x` is a Go `int` and the callers may pass
`-1`, in which case nothing is dropped. -/
def DeleteFromStart (x : Int) (y : Nat) (lines : Lines) : Lines :=
  setLineData y (fun d => d.drop (x + 1).toNat) lines

/-- Source `DeleteLine`: removes line `y` from the store. -/
def DeleteLine (y : Nat) (lines : Lines) : Lines :=
  lines.take y ++ lines.drop (y + 1)

/-- The tail of source `Split` after its re-insertion step: the new
(lower) line inherits the old line's state, the upper line's state and
both match caches are cleared, the upper line is flagged for
rehighlight, and finally `DeleteToEnd` truncates the upper line at the
split column. -/
def splitSuffix (x y : Nat) (lines : Lines) : Lines :=
  DeleteToEnd ⟨x, y⟩
    (modifyLine y (fun l => { l with rehighlight := true })
      (modifyLine (y + 1) (fun l => { l with mtch := none })
        (modifyLine y (fun l => { l with mtch := none })
          (modifyLine y (fun l => { l with state := none })
            (modifyLine (y + 1)
              (fun l => { l with state := (lines.getD y dfltLine).state })
              lines)))))

/-- Source `Split` at a position whose byte column is at the end of its
line: the re-inserted tail is empty, so the inner `insert` call is the
identity.  Every `Split` triggered from inside the re-insertion loop of
another `Split` has exactly this shape (see `insSeg` and
`insLoop_eq_insSeg`). -/
def splitEnd (x y : Nat) (lines : Lines) : Lines :=
  splitSuffix x y (NewlineBelow y lines)

/-- The byte-by-byte insertion loop of source `insert`, specialized to
the state reached inside the re-insertion performed by `Split`: there
the running byte column `x` always equals the current length of line
`y`, so a line-feed byte triggers a `Split` whose tail is empty
(`splitEnd`).  `insLoop_eq_insSeg` proves that this loop agrees with
the general loop `insLoop` whenever that invariant holds. -/
def insSeg : Bytes → Nat → Nat → Lines → Lines
  | [], _, _, lines => lines
  | b :: rest, x, y, lines =>
    if b = 10 then insSeg rest 0 (y + 1) (splitEnd x y lines)
    else insSeg rest (x + 1) y (insertByte ⟨x, y⟩ b lines)

/-- Source `Split`: creates a new line below `pos.Y` (`NewlineBelow`),
re-inserts the tail of line `pos.Y` from byte column `pos.X` into the
new empty line (the source's recursive `la.insert(Loc{0, pos.Y+1},
...)` call, realized by `insSeg`), then migrates highlight state and
truncates the upper line (`splitSuffix`). -/
def Split (pos : Loc) (lines : Lines) : Lines :=
  splitSuffix pos.X pos.Y
    (insSeg ((lines.getD pos.Y dfltLine).data.drop pos.X) 0 (pos.Y + 1)
      (NewlineBelow pos.Y lines))

/-- The byte-by-byte insertion loop of source `insert`: a line-feed
byte triggers a `Split` at the running position and the loop continues
at column 0 of the next line; any other byte is spliced in with
`insertByte` and the byte column advances. -/
def insLoop : Bytes → Nat → Nat → Lines → Lines
  | [], _, _, lines => lines
  | b :: rest, x, y, lines =>
    if b = 10 then insLoop rest 0 (y + 1) (Split ⟨x, y⟩ lines)
    else insLoop rest (x + 1) y (insertByte ⟨x, y⟩ b lines)

/-- Source `insert`: translates the rune column `pos.X` into a byte
offset of line `pos.Y` and runs the insertion loop over `value`. -/
def insert (pos : Loc) (value : Bytes) (lines : Lines) : Lines :=
  insLoop value (runeToByteIndex pos.X (lines.getD pos.Y dfltLine).data)
    pos.Y lines

/-- Source `JoinLines`: inserts line `b`'s bytes at position
`Loc{len(lines[a].data), a}` (its column is the byte length of line
`a`, which `insert`'s rune translation maps back to that byte length)
and then deletes line `b`. -/
def JoinLines (a b : Nat) (lines : Lines) : Lines :=
  DeleteLine b
    (insert ⟨(lines.getD a dfltLine).data.length, a⟩
      (lines.getD b dfltLine).data lines)

/-- Source `Substr`: the text between two locations, after translating
both rune columns to byte offsets; the multi-line case joins the start
line's tail, the full interior lines and the end line's head with
single line-feed separators. -/
def Substr (start stop : Loc) (lines : Lines) : Bytes :=
  if start.Y = stop.Y then
    ((lineData lines start.Y).take
        (runeToByteIndex stop.X (lineData lines stop.Y))).drop
      (runeToByteIndex start.X (lineData lines start.Y))
  else
    (lineData lines start.Y).drop
        (runeToByteIndex start.X (lineData lines start.Y)) ++
      10 ::
        ((lines.drop (start.Y + 1)).take (stop.Y - (start.Y + 1))).foldr
          (fun l acc => l.data ++ 10 :: acc)
          ((lineData lines stop.Y).take
            (runeToByteIndex stop.X (lineData lines stop.Y)))

/-- Source `remove`: first computes the removed text via `Substr`, then
splices the range out.  On one line the byte range between the two
translated offsets is cut out; across lines, all interior lines are
deleted (repeatedly deleting line `start.Y+1`), the start line is
truncated at the start offset, the (now adjacent) end line loses its
head up to the end offset, and the two remaining lines are joined. -/
def removeRange (start stop : Loc) (lines : Lines) : Bytes × Lines :=
  let sub := Substr start stop lines
  let startX := runeToByteIndex start.X (lineData lines start.Y)
  let endX := runeToByteIndex stop.X (lineData lines stop.Y)
  if start.Y = stop.Y then
    (sub, setLineData start.Y (fun d => d.take startX ++ d.drop endX) lines)
  else
    (sub,
      JoinLines start.Y (start.Y + 1)
        (DeleteFromStart ((endX : Int) - 1) (start.Y + 1)
          (DeleteToEnd ⟨startX, start.Y⟩
            ((DeleteLine (start.Y + 1))^[stop.Y - 1 - start.Y] lines))))

/-- Source `String` on `LineArray`: concatenates the line contents,
writing a line feed after every line except the last. -/
def laString : Lines → Bytes
  | [] => []
  | [l] => l.data
  | l :: l2 :: ls => l.data ++ 10 :: laString (l2 :: ls)

/-- The line decomposition performed by source `NewLineArray`'s read
loop: `ReadBytes('\n')` yields each chunk up to and including a line
feed, stored without that final line feed, and the (possibly empty)
unterminated chunk read at EOF is stored as-is.  No other byte — in
particular no carriage return — is stripped. -/
def splitOnNL : Bytes → List Bytes
  | [] => [[]]
  | b :: rest =>
    if b = 10 then [] :: splitOnNL rest
    else
      match splitOnNL rest with
      | l :: ls => (b :: l) :: ls
      | [] => [[b]]

/-- Source `NewLineArray`: builds the store from an input byte stream;
every stored line is `Line{data, nil, nil, false}`.  The size-estimate
reallocation in the read loop only preallocates capacity and cannot
change the stored contents, so it has no counterpart in the model. -/
def NewLineArray (input : Bytes) : Lines :=
  (splitOnNL input).map (fun d => ⟨d, none, none, false⟩)

/-- The serialization part of source `Buffer.Encode`: concatenates the
stored lines, separating consecutive lines by CR LF when the buffer's
`fileformat` setting is `"dos"` (`useCrlf`) and by a single LF
otherwise.  In this fork the `fileformat` global is never assigned
after its `= 0` initialization, so a loaded buffer's stored line-ending
convention is always the LF one and `Encode` is called with
`useCrlf = false`. -/
def Encode (useCrlf : Bool) : Lines → Bytes
  | [] => []
  | [l] => l.data
  | l :: l2 :: ls =>
    l.data ++ (if useCrlf then [13, 10] else [10]) ++ Encode useCrlf (l2 :: ls)

theorem length_modifyLine (y : Nat) (f : Line → Line) (lines : Lines) :
    (modifyLine y f lines).length = lines.length := by
  simp [modifyLine, List.length_set]

theorem length_setLineData (y : Nat) (f : Bytes → Bytes) (lines : Lines) :
    (setLineData y f lines).length = lines.length := by
  simp [setLineData, length_modifyLine]

theorem length_insertByte (pos : Loc) (b : Byte) (lines : Lines) :
    (insertByte pos b lines).length = lines.length := by
  simp [insertByte, length_setLineData]

theorem length_NewlineBelow (y : Nat) (lines : Lines) :
    (NewlineBelow y lines).length = lines.length + 1 := by
  simp only [NewlineBelow, List.length_append, List.length_take,
    List.length_cons, List.length_drop]
  omega

theorem length_splitSuffix (x y : Nat) (lines : Lines) :
    (splitSuffix x y lines).length = lines.length := by
  simp [splitSuffix, DeleteToEnd, length_setLineData, length_modifyLine]

theorem length_splitEnd (x y : Nat) (lines : Lines) :
    (splitEnd x y lines).length = lines.length + 1 := by
  simp [splitEnd, length_splitSuffix, length_NewlineBelow]

theorem modifyLine_out_of_range (y : Nat) (f : Line → Line) (lines : Lines)
    (h : lines.length ≤ y) : modifyLine y f lines = lines := by
  simp only [modifyLine]
  rw [List.set_eq_take_append_cons_drop, if_neg (by omega)]

theorem lineData_setLineData_self (y : Nat) (f : Bytes → Bytes)
    (lines : Lines) (h : y < lines.length) :
    lineData (setLineData y f lines) y = f (lineData lines y) := by
  simp only [lineData, setLineData, modifyLine]
  rw [getD_set_self _ _ _ _ h]

theorem lineData_setLineData_ne (y z : Nat) (f : Bytes → Bytes)
    (lines : Lines) (h : y ≠ z) :
    lineData (setLineData y f lines) z = lineData lines z := by
  simp only [lineData, setLineData, modifyLine]
  rw [getD_set_ne _ _ _ _ _ h]

theorem lineData_modifyLine_keep (y z : Nat) (f : Line → Line)
    (lines : Lines) (hf : ∀ l, (f l).data = l.data) :
    lineData (modifyLine y f lines) z = lineData lines z := by
  by_cases hy : y < lines.length
  · by_cases hz : y = z
    · subst hz
      simp only [lineData, modifyLine]
      rw [getD_set_self _ _ _ _ hy, hf]
    · simp only [lineData, modifyLine]
      rw [getD_set_ne _ _ _ _ _ hz]
  · rw [modifyLine_out_of_range _ _ _ (by omega)]

theorem lineData_modifyLine_state (y z : Nat) (s : HlState) (lines : Lines) :
    lineData (modifyLine y (fun l => { l with state := s }) lines) z =
      lineData lines z :=
  lineData_modifyLine_keep y z _ lines (fun _ => rfl)

theorem lineData_modifyLine_mtch (y z : Nat) (s : HlState) (lines : Lines) :
    lineData (modifyLine y (fun l => { l with mtch := s }) lines) z =
      lineData lines z :=
  lineData_modifyLine_keep y z _ lines (fun _ => rfl)

theorem lineData_modifyLine_rehl (y z : Nat) (v : Bool) (lines : Lines) :
    lineData (modifyLine y (fun l => { l with rehighlight := v }) lines) z =
      lineData lines z :=
  lineData_modifyLine_keep y z _ lines (fun _ => rfl)

theorem insSeg_eq_insLoop_no_nl (value : Bytes) (x y : Nat) (lines : Lines)
    (h : ∀ b ∈ value, b ≠ 10) :
    insSeg value x y lines = insLoop value x y lines := by
  induction value generalizing x y lines with
  | nil => rfl
  | cons b rest ih =>
    have hb : b ≠ 10 := h b (by simp)
    simp only [insSeg, insLoop, if_neg hb]
    exact ih _ _ _ (fun c hc => h c (by simp [hc]))

theorem setLineData_setLineData (y : Nat) (f g : Bytes → Bytes)
    (lines : Lines) (hy : y < lines.length) :
    setLineData y g (setLineData y f lines) =
      setLineData y (fun d => g (f d)) lines := by
  simp only [setLineData, modifyLine]
  rw [getD_set_self _ _ _ _ hy, List.set_set]

theorem setLineData_congr (y : Nat) (f g : Bytes → Bytes) (lines : Lines)
    (h : f (lineData lines y) = g (lineData lines y)) :
    setLineData y f lines = setLineData y g lines := by
  simp only [setLineData, modifyLine, lineData] at *
  rw [h]

/-- The insertion loop on a chunk free of line feeds is a plain byte
splice into the current line at the running byte column. -/
theorem insLoop_no_nl (value : Bytes) (x y : Nat) (lines : Lines)
    (hnl : ∀ b ∈ value, b ≠ 10) (hy : y < lines.length)
    (hx : x ≤ (lineData lines y).length) :
    insLoop value x y lines =
      setLineData y (fun d => d.take x ++ value ++ d.drop x) lines := by
  induction value generalizing x lines with
  | nil =>
    simp only [insLoop, setLineData, modifyLine, List.append_nil,
      List.take_append_drop]
    exact (set_getD_self lines y dfltLine hy).symm
  | cons b rest ih =>
    have hb : b ≠ 10 := hnl b (by simp)
    simp only [insLoop, if_neg hb]
    have hy2 : y < (insertByte ⟨x, y⟩ b lines).length := by
      rw [length_insertByte]; exact hy
    have hdata : lineData (insertByte ⟨x, y⟩ b lines) y =
        (lineData lines y).take x ++ b :: (lineData lines y).drop x :=
      lineData_setLineData_self y _ lines hy
    have hx2 : x + 1 ≤ (lineData (insertByte ⟨x, y⟩ b lines) y).length := by
      rw [hdata]
      simp only [List.length_append, List.length_take, List.length_cons,
        List.length_drop]
      omega
    rw [ih _ _ (fun c hc => hnl c (by simp [hc])) hy2 hx2]
    rw [insertByte, setLineData_setLineData _ _ _ _ hy]
    apply setLineData_congr
    have hlen : ((lineData lines y).take x).length = x := by
      simp only [List.length_take]
      omega
    have e : x + 1 = ((lineData lines y).take x).length + 1 := by omega
    rw [e, take_splice, drop_splice]
    simp

/-- Faithfulness of `insSeg` to the source's recursive `insert` call in
`Split`: whenever the running byte column sits at the end of the
current line, the general insertion loop and its `splitEnd`-based
specialization agree. -/
theorem insLoop_eq_insSeg (value : Bytes) (x y : Nat) (lines : Lines)
    (hy : y < lines.length) (hx : (lineData lines y).length = x) :
    insLoop value x y lines = insSeg value x y lines := by
  induction value generalizing x y lines with
  | nil => rfl
  | cons b rest ih =>
    by_cases hb : b = 10
    · subst hb
      simp only [insLoop, insSeg, if_pos rfl]
      have htail : (lines.getD y dfltLine).data.drop x = [] := by
        have : (lines.getD y dfltLine).data.length = x := hx
        rw [← this]
        exact List.drop_length _
      have hsplit : Split ⟨x, y⟩ lines = splitEnd x y lines := by
        simp only [Split, splitEnd, htail, insSeg]
      rw [hsplit]
      have h1 : y + 1 < (splitEnd x y lines).length := by
        rw [length_splitEnd]; omega
      have h2 : lineData (splitEnd x y lines) (y + 1) = [] := by
        simp only [splitEnd, splitSuffix, DeleteToEnd]
        rw [lineData_setLineData_ne _ _ _ _ (by omega)]
        rw [lineData_modifyLine_rehl, lineData_modifyLine_mtch,
          lineData_modifyLine_mtch, lineData_modifyLine_state,
          lineData_modifyLine_state]
        simp only [lineData, NewlineBelow]
        have hlen : (lines.take (y + 1)).length = y + 1 := by
          simp only [List.length_take]
          omega
        rw [getD_append_len_eq _ _ _ _ _ hlen]
      exact ih _ _ _ h1 (by rw [h2]; rfl)
    · simp only [insLoop, insSeg, if_neg hb]
      have hy2 : y < (insertByte ⟨x, y⟩ b lines).length := by
        rw [length_insertByte]; exact hy
      have hx2 : (lineData (insertByte ⟨x, y⟩ b lines) y).length = x + 1 := by
        have hd : lineData (insertByte ⟨x, y⟩ b lines) y =
            (lineData lines y).take x ++ b :: (lineData lines y).drop x :=
          lineData_setLineData_self y _ lines hy
        rw [hd]
        simp only [List.length_append, List.length_take, List.length_cons,
          List.length_drop]
        omega
      exact ih _ _ _ hy2 hx2

theorem take_splice_eq {α : Type _} (A : List α) (c : α) (B : List α)
    (n : Nat) (h : A.length + 1 = n) : (A ++ c :: B).take n = A ++ [c] := by
  subst h; exact take_splice A c B

theorem drop_splice_eq {α : Type _} (A : List α) (c : α) (B : List α)
    (n : Nat) (h : A.length + 1 = n) : (A ++ c :: B).drop n = B := by
  subst h; exact drop_splice A c B

theorem list_decomp {α : Type _} (y : Nat) (L : List α) (d : α)
    (hy : y < L.length) :
    L = L.take y ++ L.getD y d :: L.drop (y + 1) := by
  induction L generalizing y with
  | nil => simp at hy
  | cons a t ih =>
    cases y with
    | zero => simp
    | succ y =>
      simp only [List.take_succ_cons, List.getD_cons_succ,
        List.drop_succ_cons, List.cons_append]
      rw [← ih y (by simpa using hy)]

theorem modifyLine_fst_shape (y : Nat) (f : Line → Line) (A : Lines)
    (a b : Line) (B : Lines) (hA : A.length = y) :
    modifyLine y f (A ++ a :: b :: B) = A ++ f a :: b :: B := by
  simp only [modifyLine]
  rw [getD_append_len_eq _ _ _ _ _ hA, set_append_len_eq _ _ _ _ _ hA]

theorem modifyLine_snd_shape (y : Nat) (f : Line → Line) (A : Lines)
    (a b : Line) (B : Lines) (hA : A.length = y) :
    modifyLine (y + 1) f (A ++ a :: b :: B) = A ++ a :: f b :: B := by
  have h1 : (A ++ [a]).length = y + 1 := by simp [hA]
  simp only [modifyLine]
  rw [show A ++ a :: b :: B = (A ++ [a]) ++ b :: B from by simp]
  rw [getD_append_len_eq _ _ _ _ _ h1, set_append_len_eq _ _ _ _ _ h1]
  simp

/-- Source `Split` on a store decomposed around the split line: the
upper line keeps the head bytes with cleared state and match and a set
rehighlight flag; the new lower line holds the tail bytes and inherits
the old line's state. -/
theorem Split_shape (x y : Nat) (A : Lines) (a : Line) (B : Lines)
    (hA : A.length = y) (hnl : ∀ c ∈ a.data, c ≠ 10) :
    Split ⟨x, y⟩ (A ++ a :: B) =
      A ++ ⟨a.data.take x, none, none, true⟩ ::
        ⟨a.data.drop x, a.state, none, false⟩ :: B := by
  have hget : (A ++ a :: B).getD y dfltLine = a := getD_append_len_eq A a B _ y hA
  have hNB : NewlineBelow y (A ++ a :: B) =
      A ++ a :: (⟨[], a.state, none, false⟩ : Line) :: B := by
    simp only [NewlineBelow, hget]
    rw [take_splice_eq A a B (y + 1) (by omega),
      drop_splice_eq A a B (y + 1) (by omega)]
    simp
  have htailnl : ∀ c ∈ a.data.drop x, c ≠ 10 :=
    fun c hc => hnl c (List.drop_subset _ _ hc)
  have hlen1 : (A ++ [a]).length = y + 1 := by simp [hA]
  have hseg : insSeg (a.data.drop x) 0 (y + 1)
      (A ++ a :: (⟨[], a.state, none, false⟩ : Line) :: B) =
      A ++ a :: (⟨a.data.drop x, a.state, none, false⟩ : Line) :: B := by
    rw [insSeg_eq_insLoop_no_nl _ _ _ _ htailnl]
    have hy1 : y + 1 <
        (A ++ a :: (⟨[], a.state, none, false⟩ : Line) :: B).length := by
      simp only [List.length_append, List.length_cons]
      omega
    have hld : lineData
        (A ++ a :: (⟨[], a.state, none, false⟩ : Line) :: B) (y + 1) = [] := by
      simp only [lineData]
      rw [show A ++ a :: (⟨[], a.state, none, false⟩ : Line) :: B =
        (A ++ [a]) ++ (⟨[], a.state, none, false⟩ : Line) :: B from by simp]
      rw [getD_append_len_eq _ _ _ _ _ hlen1]
    rw [insLoop_no_nl _ _ _ _ htailnl hy1 (by rw [hld]; exact Nat.zero_le _)]
    simp only [setLineData]
    rw [modifyLine_snd_shape _ _ _ _ _ _ hA]
    simp
  have hsuf : splitSuffix x y
      (A ++ a :: (⟨a.data.drop x, a.state, none, false⟩ : Line) :: B) =
      A ++ ⟨a.data.take x, none, none, true⟩ ::
        ⟨a.data.drop x, a.state, none, false⟩ :: B := by
    simp only [splitSuffix, DeleteToEnd, setLineData]
    rw [getD_append_len_eq _ _ _ _ _ hA]
    rw [modifyLine_snd_shape _ _ _ _ _ _ hA]
    rw [modifyLine_fst_shape _ _ _ _ _ _ hA]
    rw [modifyLine_fst_shape _ _ _ _ _ _ hA]
    rw [modifyLine_snd_shape _ _ _ _ _ _ hA]
    rw [modifyLine_fst_shape _ _ _ _ _ _ hA]
    rw [modifyLine_fst_shape _ _ _ _ _ _ hA]
  simp only [Split]
  rw [hget, hNB, hseg, hsuf]

/-- Source `JoinLines` on adjacent lines, on a store decomposed around
them: the upper line's bytes are extended with the lower line's bytes
and the lower line is removed. -/
theorem JoinLines_shape (y : Nat) (A : Lines) (a b : Line) (B : Lines)
    (hA : A.length = y) (hnl : ∀ c ∈ b.data, c ≠ 10) :
    JoinLines y (y + 1) (A ++ a :: b :: B) =
      A ++ { a with data := a.data ++ b.data } :: B := by
  have hga : (A ++ a :: b :: B).getD y dfltLine = a :=
    getD_append_len_eq _ _ _ _ _ hA
  have hgb : (A ++ a :: b :: B).getD (y + 1) dfltLine = b := by
    rw [show A ++ a :: b :: B = (A ++ [a]) ++ b :: B from by simp]
    exact getD_append_len_eq _ _ _ _ _ (by simp [hA])
  simp only [JoinLines, insert]
  rw [hga, hgb]
  rw [runeToByteIndex_full _ _ (runeCount_le_length a.data)]
  have hy1 : y < (A ++ a :: b :: B).length := by
    simp only [List.length_append, List.length_cons]
    omega
  have hld : lineData (A ++ a :: b :: B) y = a.data := by
    simp only [lineData, hga]
  rw [insLoop_no_nl _ _ _ _ hnl hy1 (by rw [hld])]
  simp only [setLineData]
  rw [modifyLine_fst_shape _ _ _ _ _ _ hA]
  simp only [List.take_length, List.drop_length, List.append_nil]
  simp only [DeleteLine]
  rw [take_splice_eq _ _ _ _ (by simp [hA])]
  rw [show A ++ ({ a with data := a.data ++ b.data } : Line) :: b :: B =
    (A ++ [{ a with data := a.data ++ b.data }]) ++ b :: B from by simp]
  rw [drop_splice_eq _ _ _ _ (by simp [hA])]
  simp

/-- C2: for every valid position in a LineArray (whose lines satisfy
the no-line-feed invariant), `Split(pos)` immediately followed by
`JoinLines(pos.Y, pos.Y+1)` reproduces the original store's bytes and
line count exactly. -/
theorem claim_C2_split_join_inverse (lines : Lines) (pos : Loc)
    (hy : pos.Y < lines.length)
    (hnl : ∀ c ∈ (lines.getD pos.Y dfltLine).data, c ≠ 10) :
    (JoinLines pos.Y (pos.Y + 1) (Split pos lines)).map Line.data =
        lines.map Line.data ∧
      (JoinLines pos.Y (pos.Y + 1) (Split pos lines)).length =
        lines.length := by
  obtain ⟨x, y⟩ := pos
  dsimp only at hy hnl ⊢
  obtain ⟨A, B, a, hEq, hlen⟩ :
      ∃ A B a, lines = A ++ a :: B ∧ A.length = y :=
    ⟨lines.take y, lines.drop (y + 1), lines.getD y dfltLine,
      list_decomp y lines dfltLine hy, by
        rw [List.length_take]
        exact Nat.min_eq_left (by omega)⟩
  subst hEq
  have hnl' : ∀ c ∈ a.data, c ≠ 10 := by
    rw [getD_append_len_eq _ _ _ _ _ hlen] at hnl
    exact hnl
  rw [Split_shape x y A a B hlen hnl']
  rw [JoinLines_shape y A _ _ B hlen
    (fun c hc => hnl' c (List.drop_subset _ _ hc))]
  constructor
  · simp [List.take_append_drop]
  · simp

/-- Witness for C2: splitting the single line "ab" at byte column 1 and
joining lines 0 and 1 back restores the store. -/
theorem claim_C2_witness :
    (0 < ([⟨[97, 98], none, none, false⟩] : Lines).length ∧
      ∀ c ∈ (([⟨[97, 98], none, none, false⟩] : Lines).getD 0 dfltLine).data,
        c ≠ 10) ∧
    ((JoinLines 0 1 (Split ⟨1, 0⟩ [⟨[97, 98], none, none, false⟩])).map
        Line.data = ([⟨[97, 98], none, none, false⟩] : Lines).map Line.data ∧
      (JoinLines 0 1 (Split ⟨1, 0⟩ [⟨[97, 98], none, none, false⟩])).length =
        ([⟨[97, 98], none, none, false⟩] : Lines).length) :=
  ⟨⟨by decide, by decide⟩,
    claim_C2_split_join_inverse [⟨[97, 98], none, none, false⟩] ⟨1, 0⟩
      (by decide) (by decide)⟩

theorem setLineData_splice_step (x y : Nat) (b : Byte) (v : Bytes)
    (lines : Lines) (hy : y < lines.length)
    (hx : x ≤ (lineData lines y).length) :
    setLineData y (fun d => d.take (x + 1) ++ v ++ d.drop (x + 1))
        (insertByte ⟨x, y⟩ b lines) =
      setLineData y (fun d => d.take x ++ (b :: v) ++ d.drop x) lines := by
  rw [insertByte, setLineData_setLineData _ _ _ _ hy]
  apply setLineData_congr
  have e : x + 1 = ((lineData lines y).take x).length + 1 := by
    simp only [List.length_take]
    omega
  rw [e, take_splice, drop_splice]
  simp

/-- Processing a line-feed-free prefix `v1` followed by a line feed:
the prefix is spliced into the current line, the line feed triggers a
`Split` at the advanced running position, and the loop continues at
column 0 of the next line.  This is the general step behind C7. -/
theorem insLoop_split_at_nl (v1 : Bytes) :
    ∀ (v2 : Bytes) (x y : Nat) (lines : Lines),
      (∀ b ∈ v1, b ≠ 10) → y < lines.length →
      x ≤ (lineData lines y).length →
      insLoop (v1 ++ 10 :: v2) x y lines =
        insLoop v2 0 (y + 1)
          (Split ⟨x + v1.length, y⟩
            (setLineData y (fun d => d.take x ++ v1 ++ d.drop x) lines)) := by
  induction v1 with
  | nil =>
    intro v2 x y lines _ hy _
    have hid : setLineData y (fun d => d.take x ++ ([] : Bytes) ++ d.drop x)
        lines = lines := by
      simp only [setLineData, modifyLine, List.append_nil,
        List.take_append_drop]
      exact set_getD_self lines y dfltLine hy
    rw [hid]
    simp only [List.nil_append, List.length_nil, Nat.add_zero, insLoop]
    simp
  | cons b v1' ih =>
    intro v2 x y lines hnl hy hx
    have hb : b ≠ 10 := hnl b (by simp)
    simp only [List.cons_append, insLoop, if_neg hb]
    simp only [List.append_eq]
    have hy2 : y < (insertByte ⟨x, y⟩ b lines).length := by
      rw [length_insertByte]; exact hy
    have hx2 : x + 1 ≤ (lineData (insertByte ⟨x, y⟩ b lines) y).length := by
      have hd : lineData (insertByte ⟨x, y⟩ b lines) y =
          (lineData lines y).take x ++ b :: (lineData lines y).drop x :=
        lineData_setLineData_self y _ lines hy
      rw [hd]
      simp only [List.length_append, List.length_take, List.length_cons,
        List.length_drop]
      omega
    rw [ih v2 (x + 1) y (insertByte ⟨x, y⟩ b lines)
      (fun c hc => hnl c (by simp [hc])) hy2 hx2]
    rw [setLineData_splice_step x y b v1' lines hy hx]
    rw [show x + 1 + v1'.length = x + (b :: v1').length from by simp; omega]

/-- C7: `LineArray.insert` inserts the bytes one at a time; every
line-feed byte in the value triggers a `Split` at the current running
position and insertion continues at column 0 of the newly created
line.  In particular, on the store built from "héllo\nworld", inserting
"X" at rune location (column 1, line 0) yields line 0 "hXéllo" and
leaves the line count at 2. -/
theorem claim_C7_insert_bytewise (v1 v2 : Bytes) (x y : Nat)
    (lines : Lines) (hnl : ∀ b ∈ v1, b ≠ 10) (hy : y < lines.length)
    (hx : x ≤ (lineData lines y).length) :
    (insLoop (v1 ++ 10 :: v2) x y lines =
       insLoop v2 0 (y + 1)
         (Split ⟨x + v1.length, y⟩
           (setLineData y (fun d => d.take x ++ v1 ++ d.drop x) lines))) ∧
    (insert ⟨1, 0⟩ [88] (NewLineArray
        [104, 195, 169, 108, 108, 111, 10, 119, 111, 114, 108, 100])).map
      Line.data =
        [[104, 88, 195, 169, 108, 108, 111], [119, 111, 114, 108, 100]] ∧
    (insert ⟨1, 0⟩ [88] (NewLineArray
        [104, 195, 169, 108, 108, 111, 10, 119, 111, 114, 108, 100])).length =
      2 := by
  refine ⟨insLoop_split_at_nl v1 v2 x y lines hnl hy hx, ?_, ?_⟩ <;>
  · simp only [insert]
    rw [show (((NewLineArray [104, 195, 169, 108, 108, 111, 10, 119, 111,
      114, 108, 100]).getD 0 dfltLine).data) =
      [104, 195, 169, 108, 108, 111] from rfl]
    rw [show runeToByteIndex 1 [104, 195, 169, 108, 108, 111] = 1 from by
      rw [runeToByteIndex_succ, runeToByteIndex_zero]; decide]
    decide

/-- Witness for C7 at the empty prefix, inserting a bare line feed at
the start of a one-line store. -/
theorem claim_C7_witness :
    ((∀ b ∈ ([] : Bytes), b ≠ 10) ∧ 0 < ([dfltLine] : Lines).length ∧
      0 ≤ (lineData [dfltLine] 0).length) ∧
    ((insLoop (([] : Bytes) ++ 10 :: []) 0 0 [dfltLine] =
       insLoop [] 0 (0 + 1)
         (Split ⟨0 + ([] : Bytes).length, 0⟩
           (setLineData 0 (fun d => d.take 0 ++ [] ++ d.drop 0) [dfltLine]))) ∧
    (insert ⟨1, 0⟩ [88] (NewLineArray
        [104, 195, 169, 108, 108, 111, 10, 119, 111, 114, 108, 100])).map
      Line.data =
        [[104, 88, 195, 169, 108, 108, 111], [119, 111, 114, 108, 100]] ∧
    (insert ⟨1, 0⟩ [88] (NewLineArray
        [104, 195, 169, 108, 108, 111, 10, 119, 111, 114, 108, 100])).length =
      2) :=
  ⟨⟨by decide, by decide, by decide⟩,
    claim_C7_insert_bytewise [] [] 0 0 [dfltLine] (by decide) (by decide)
      (by decide)⟩

theorem splitOnNL_ne_nil (input : Bytes) : splitOnNL input ≠ [] := by
  induction input with
  | nil => simp [splitOnNL]
  | cons b rest ih =>
    simp only [splitOnNL]
    split
    · simp
    · cases h : splitOnNL rest with
      | nil => simp
      | cons l ls => simp

theorem no_nl_mem_splitOnNL (input : Bytes) (l : Bytes)
    (hl : l ∈ splitOnNL input) : 10 ∉ l := by
  induction input generalizing l with
  | nil =>
    simp only [splitOnNL, List.mem_singleton] at hl
    subst hl
    simp
  | cons b rest ih =>
    simp only [splitOnNL] at hl
    by_cases hb : b = 10
    · rw [if_pos hb] at hl
      rcases List.mem_cons.mp hl with h | h
      · subst h; simp
      · exact ih l h
    · rw [if_neg hb] at hl
      cases hsp : splitOnNL rest with
      | nil => exact absurd hsp (splitOnNL_ne_nil rest)
      | cons l0 ls =>
        rw [hsp] at hl
        rcases List.mem_cons.mp hl with h | h
        · subst h
          intro hmem
          rcases List.mem_cons.mp hmem with h10 | h10
          · exact hb h10.symm
          · exact (ih l0 (by rw [hsp]; exact List.mem_cons_self _ _)) h10
        · exact ih l (by rw [hsp]; exact List.mem_cons.mpr (Or.inr h))

theorem laString_mk_splitOnNL (input : Bytes) :
    laString ((splitOnNL input).map
      (fun d => (⟨d, none, none, false⟩ : Line))) = input := by
  induction input with
  | nil => rfl
  | cons b rest ih =>
    simp only [splitOnNL]
    by_cases hb : b = 10
    · rw [if_pos hb]
      cases hsp : splitOnNL rest with
      | nil => exact absurd hsp (splitOnNL_ne_nil rest)
      | cons l0 ls =>
        rw [hsp] at ih
        subst hb
        simp only [List.map_cons] at ih ⊢
        simp only [laString]
        rw [ih]
        simp
    · rw [if_neg hb]
      cases hsp : splitOnNL rest with
      | nil => exact absurd hsp (splitOnNL_ne_nil rest)
      | cons l0 ls =>
        rw [hsp] at ih
        cases ls with
        | nil =>
          simp only [List.map_cons, List.map_nil] at ih ⊢
          simp only [laString] at ih ⊢
          rw [ih]
        | cons l1 ls' =>
          simp only [List.map_cons] at ih ⊢
          simp only [laString] at ih ⊢
          simp only [List.cons_append]
          rw [ih]

theorem laString_NewLineArray (input : Bytes) :
    laString (NewLineArray input) = input :=
  laString_mk_splitOnNL input

theorem Encode_false_eq_laString (lines : Lines) :
    Encode false lines = laString lines := by
  induction lines with
  | nil => rfl
  | cons l ls ih =>
    cases ls with
    | nil => rfl
    | cons l2 ls2 =>
      simp only [Encode, laString] at ih ⊢
      rw [ih]
      simp

/-- C4 counterexample: loading the CR LF input "a\r\nb" stores the
carriage return in line 0's bytes — it is not stripped. -/
theorem claim_C4_counterexample :
    (NewLineArray [97, 13, 10, 98]).map Line.data = [[97, 13], [98]] ∧
      13 ∈ lineData (NewLineArray [97, 13, 10, 98]) 0 := by
  constructor
  · rfl
  · decide

/-- C4 (amended): no stored line ever contains a line-feed byte, but
for CR LF input the carriage return preceding each terminator is
retained in the stored bytes (NewLineArray performs no CR stripping). -/
theorem claim_C4_amended_no_lf (input : Bytes) (l : Line)
    (hl : l ∈ NewLineArray input) : 10 ∉ l.data := by
  obtain ⟨d, hd, rfl⟩ := List.mem_map.mp hl
  exact no_nl_mem_splitOnNL input d hd

/-- Witness for the amended C4 on the CR LF input "a\r\nb". -/
theorem claim_C4_amended_witness :
    (⟨[97, 13], none, none, false⟩ : Line) ∈ NewLineArray [97, 13, 10, 98] ∧
      10 ∉ (⟨[97, 13], none, none, false⟩ : Line).data :=
  ⟨by decide,
    claim_C4_amended_no_lf [97, 13, 10, 98] ⟨[97, 13], none, none, false⟩
      (by decide)⟩

/-- C6: loading any byte text through the identity codec and
serializing the stored lines back — by `String`, or by `Encode` under
the buffer's stored line-ending convention, which in this fork is
always the LF one since the `fileformat` global is never set —
reproduces the text exactly, for LF as well as CR LF input (the CR
bytes are retained inside the stored lines). -/
theorem claim_C6_identity_roundtrip (input : Bytes) :
    laString (NewLineArray input) = input ∧
      Encode false (NewLineArray input) = input :=
  ⟨laString_NewLineArray input, by
    rw [Encode_false_eq_laString]
    exact laString_NewLineArray input⟩

/-- Source `Buffer.Start`: the location of the first character. -/
def bufStart : Loc := ⟨0, 0⟩

/-- Source `Buffer.End`: the end-of-buffer location, at rune column
`utf8.RuneCount` of the last line, on line `NumLines - 1`. -/
def bufEnd (lines : Lines) : Loc :=
  ⟨runeCount (lineData lines (lines.length - 1)), lines.length - 1⟩

theorem removeRange_fst (start stop : Loc) (lines : Lines) :
    (removeRange start stop lines).1 = Substr start stop lines := by
  unfold removeRange
  split
  · rfl
  · rfl

theorem removeRange_sameline (start stop : Loc) (lines : Lines)
    (h : start.Y = stop.Y) :
    (removeRange start stop lines).2 =
      setLineData start.Y (fun d =>
        d.take (runeToByteIndex start.X (lineData lines start.Y)) ++
          d.drop (runeToByteIndex stop.X (lineData lines stop.Y))) lines := by
  unfold removeRange
  split
  · rfl
  · exact absurd h (by assumption)

theorem iterate_DeleteLine (k m : Nat) (lines : Lines)
    (hm : m + k ≤ lines.length) :
    (DeleteLine m)^[k] lines = lines.take m ++ lines.drop (m + k) := by
  induction k generalizing lines with
  | zero => simp [List.take_append_drop]
  | succ k ih =>
    rw [Function.iterate_succ_apply]
    have h1 : DeleteLine m lines = lines.take m ++ lines.drop (m + 1) := rfl
    rw [h1, ih _ (by
      simp only [List.length_append, List.length_take, List.length_drop]
      omega)]
    have hA : (lines.take m).length = m := by
      simp only [List.length_take]
      omega
    rw [take_append_len _ _ _ hA]
    congr 1
    rw [show m + k = (lines.take m).length + k from by omega]
    rw [List.drop_append, List.drop_drop]
    congr 1
    omega

/-- The multi-line branch of source `remove`: interior lines deleted,
start line truncated at the start offset, end line beheaded at the end
offset, the two joined; the line count shrinks by `stop.Y - start.Y`. -/
theorem removeRange_multiline (start stop : Loc) (lines : Lines)
    (hlt : start.Y < stop.Y) (hstop : stop.Y < lines.length)
    (hnl : ∀ l ∈ lines, ∀ c ∈ l.data, c ≠ 10) :
    ((removeRange start stop lines).2).map Line.data =
      (lines.take start.Y).map Line.data ++
        ((lineData lines start.Y).take
            (runeToByteIndex start.X (lineData lines start.Y)) ++
          (lineData lines stop.Y).drop
            (runeToByteIndex stop.X (lineData lines stop.Y))) ::
        (lines.drop (stop.Y + 1)).map Line.data ∧
      ((removeRange start stop lines).2).length =
        lines.length - (stop.Y - start.Y) := by
  obtain ⟨sx, sy⟩ := start
  obtain ⟨ex, ey⟩ := stop
  dsimp only at *
  obtain ⟨A, a, M, b, B, hEq, hA, hM⟩ :
      ∃ A a M b B, lines = A ++ a :: (M ++ b :: B) ∧
        A.length = sy ∧ M.length = ey - sy - 1 := by
    refine ⟨lines.take sy, lines.getD sy dfltLine,
      (lines.drop (sy + 1)).take (ey - (sy + 1)),
      (lines.drop (sy + 1)).getD (ey - (sy + 1)) dfltLine,
      (lines.drop (sy + 1)).drop (ey - (sy + 1) + 1), ?_, ?_, ?_⟩
    · conv_lhs => rw [list_decomp sy lines dfltLine (by omega)]
      congr 2
      exact list_decomp (ey - (sy + 1)) (lines.drop (sy + 1)) dfltLine
        (by simp only [List.length_drop]; omega)
    · rw [List.length_take]
      exact Nat.min_eq_left (by omega)
    · rw [List.length_take]
      simp only [List.length_drop]
      omega
  subst hEq
  have hEassoc : A ++ a :: (M ++ b :: B) = (A ++ a :: M) ++ b :: B := by simp
  have hAM : (A ++ a :: M).length = ey := by
    simp only [List.length_append, List.length_cons]
    omega
  have hga : (A ++ a :: (M ++ b :: B)).getD sy dfltLine = a :=
    getD_append_len_eq _ _ _ _ _ hA
  have hgb : (A ++ a :: (M ++ b :: B)).getD ey dfltLine = b := by
    rw [hEassoc]
    exact getD_append_len_eq _ _ _ _ _ hAM
  have hlds : lineData (A ++ a :: (M ++ b :: B)) sy = a.data := by
    simp only [lineData, hga]
  have hlde : lineData (A ++ a :: (M ++ b :: B)) ey = b.data := by
    simp only [lineData, hgb]
  have hlenE : (A ++ a :: (M ++ b :: B)).length =
      A.length + 1 + (M.length + 1 + B.length) := by
    simp only [List.length_append, List.length_cons]
    omega
  unfold removeRange
  rw [if_neg (by omega : ¬ sy = ey)]
  rw [hlds, hlde]
  have hiter : (DeleteLine (sy + 1))^[ey - 1 - sy] (A ++ a :: (M ++ b :: B)) =
      A ++ a :: b :: B := by
    rw [iterate_DeleteLine _ _ _ (by omega)]
    rw [take_splice_eq A a (M ++ b :: B) (sy + 1) (by omega)]
    rw [show sy + 1 + (ey - 1 - sy) = ey from by omega]
    rw [hEassoc, drop_append_len _ _ _ hAM]
    simp
  rw [hiter]
  have hstep2 : DeleteToEnd ⟨runeToByteIndex sx a.data, sy⟩
      (A ++ a :: b :: B) =
      A ++ { a with data := a.data.take (runeToByteIndex sx a.data) } ::
        b :: B := by
    simp only [DeleteToEnd, setLineData]
    rw [modifyLine_fst_shape _ _ _ _ _ _ hA]
  rw [hstep2]
  have hstep3 : DeleteFromStart ((runeToByteIndex ex b.data : Int) - 1)
      (sy + 1)
      (A ++ { a with data := a.data.take (runeToByteIndex sx a.data) } ::
        b :: B) =
      A ++ { a with data := a.data.take (runeToByteIndex sx a.data) } ::
        { b with data := b.data.drop (runeToByteIndex ex b.data) } :: B := by
    simp only [DeleteFromStart, setLineData]
    rw [modifyLine_snd_shape _ _ _ _ _ _ hA]
    rw [show ((runeToByteIndex ex b.data : Int) - 1 + 1).toNat =
      runeToByteIndex ex b.data from by omega]
  rw [hstep3]
  have hbnl : ∀ c ∈ b.data.drop (runeToByteIndex ex b.data), c ≠ 10 :=
    fun c hc => hnl b (by simp) c (List.drop_subset _ _ hc)
  rw [JoinLines_shape sy A _ _ B hA hbnl]
  constructor
  · rw [take_append_len _ _ _ hA]
    rw [show (A ++ a :: (M ++ b :: B)).drop (ey + 1) = B from by
      rw [hEassoc]
      exact drop_splice_eq _ _ _ _ (by omega)]
    simp [List.map_append]
  · simp only [List.length_append, List.length_cons]
    omega

/-- C3: `remove(start, end)` returns exactly the pre-state `Substr`
text; afterwards, on one line the line's bytes are its old prefix up to
the translated start offset joined with its old suffix from the
translated end offset; across lines, the interior lines are gone, the
truncated start and end lines are joined into one, and the line count
decreases by `end.Y - start.Y`. -/
theorem claim_C3_remove_correct (start stop : Loc) (lines : Lines)
    (hstop : stop.Y < lines.length) (horder : start.Y ≤ stop.Y)
    (hnl : ∀ l ∈ lines, ∀ c ∈ l.data, c ≠ 10) :
    (removeRange start stop lines).1 = Substr start stop lines ∧
    (start.Y = stop.Y →
      (removeRange start stop lines).2 =
        setLineData start.Y (fun d =>
          d.take (runeToByteIndex start.X (lineData lines start.Y)) ++
            d.drop (runeToByteIndex stop.X (lineData lines stop.Y)))
          lines) ∧
    (start.Y < stop.Y →
      ((removeRange start stop lines).2).map Line.data =
        (lines.take start.Y).map Line.data ++
          ((lineData lines start.Y).take
              (runeToByteIndex start.X (lineData lines start.Y)) ++
            (lineData lines stop.Y).drop
              (runeToByteIndex stop.X (lineData lines stop.Y))) ::
          (lines.drop (stop.Y + 1)).map Line.data ∧
        ((removeRange start stop lines).2).length =
          lines.length - (stop.Y - start.Y)) :=
  ⟨removeRange_fst start stop lines,
    fun h => removeRange_sameline start stop lines h,
    fun h => removeRange_multiline start stop lines h hstop hnl⟩

/-- Witness for C3 on a two-line store, removing across the line break
from location (0,0) to location (0,1). -/
theorem claim_C3_witness :
    ((1 : Nat) < 2 ∧ (0 : Nat) ≤ 1 ∧
      ∀ l ∈ ([dfltLine, dfltLine] : Lines), ∀ c ∈ l.data, c ≠ 10) ∧
    ((removeRange ⟨0, 0⟩ ⟨0, 1⟩ [dfltLine, dfltLine]).1 =
        Substr ⟨0, 0⟩ ⟨0, 1⟩ [dfltLine, dfltLine] ∧
      ((0 : Nat) = 1 →
        (removeRange ⟨0, 0⟩ ⟨0, 1⟩ [dfltLine, dfltLine]).2 =
          setLineData 0 (fun d =>
            d.take (runeToByteIndex 0
              (lineData [dfltLine, dfltLine] 0)) ++
              d.drop (runeToByteIndex 0
                (lineData [dfltLine, dfltLine] 1)))
            [dfltLine, dfltLine]) ∧
      ((0 : Nat) < 1 →
        ((removeRange ⟨0, 0⟩ ⟨0, 1⟩ [dfltLine, dfltLine]).2).map Line.data =
          (([dfltLine, dfltLine] : Lines).take 0).map Line.data ++
            ((lineData [dfltLine, dfltLine] 0).take
                (runeToByteIndex 0 (lineData [dfltLine, dfltLine] 0)) ++
              (lineData [dfltLine, dfltLine] 1).drop
                (runeToByteIndex 0 (lineData [dfltLine, dfltLine] 1))) ::
            (([dfltLine, dfltLine] : Lines).drop 2).map Line.data ∧
          ((removeRange ⟨0, 0⟩ ⟨0, 1⟩ [dfltLine, dfltLine]).2).length =
            ([dfltLine, dfltLine] : Lines).length - 1)) :=
  ⟨⟨by decide, by decide, by decide⟩,
    claim_C3_remove_correct ⟨0, 0⟩ ⟨0, 1⟩ [dfltLine, dfltLine]
      (by decide) (by decide) (by decide)⟩

/-- C5: a LineArray always holds at least one line — construction from
the empty stream yields exactly one empty Line, `remove` over a valid
range never drops the count below 1, and on a single empty line
`remove(Start(), End())` is a no-op returning the empty string. -/
theorem claim_C5_never_below_one_line (start stop : Loc) (lines : Lines)
    (hstop : stop.Y < lines.length) (horder : start.Y ≤ stop.Y)
    (hnl : ∀ l ∈ lines, ∀ c ∈ l.data, c ≠ 10) :
    NewLineArray [] = [⟨[], none, none, false⟩] ∧
    1 ≤ ((removeRange start stop lines).2).length ∧
    removeRange bufStart (bufEnd [⟨[], none, none, false⟩])
        [⟨[], none, none, false⟩] =
      ([], [⟨[], none, none, false⟩]) := by
  refine ⟨rfl, ?_, ?_⟩
  · by_cases hEq : start.Y = stop.Y
    · rw [removeRange_sameline start stop lines hEq, length_setLineData]
      omega
    · have := (removeRange_multiline start stop lines (by omega) hstop hnl).2
      omega
  · have hE : bufEnd [(⟨[], none, none, false⟩ : Line)] = ⟨0, 0⟩ := by
      rw [show bufEnd [(⟨[], none, none, false⟩ : Line)] =
        ⟨runeCount [], 0⟩ from rfl, runeCount_nil]
    rw [hE]
    refine Prod.ext ?_ ?_
    · rw [show bufStart = (⟨0, 0⟩ : Loc) from rfl]
      rw [removeRange_fst]
      unfold Substr
      rw [if_pos rfl]
      rw [runeToByteIndex_zero]
      rfl
    · rw [show bufStart = (⟨0, 0⟩ : Loc) from rfl]
      rw [removeRange_sameline _ _ _ rfl]
      simp only [runeToByteIndex_zero]
      decide

/-- Witness for C5 on a two-line store with the range (0,0)-(0,1). -/
theorem claim_C5_witness :
    ((1 : Nat) < 2 ∧ (0 : Nat) ≤ 1 ∧
      ∀ l ∈ ([dfltLine, dfltLine] : Lines), ∀ c ∈ l.data, c ≠ 10) ∧
    (NewLineArray [] = [⟨[], none, none, false⟩] ∧
      1 ≤ ((removeRange ⟨0, 0⟩ ⟨0, 1⟩ [dfltLine, dfltLine]).2).length ∧
      removeRange bufStart (bufEnd [⟨[], none, none, false⟩])
          [⟨[], none, none, false⟩] =
        ([], [⟨[], none, none, false⟩])) :=
  ⟨⟨by decide, by decide, by decide⟩,
    claim_C5_never_below_one_line ⟨0, 0⟩ ⟨0, 1⟩ [dfltLine, dfltLine]
      (by decide) (by decide) (by decide)⟩

/-- The slice of Go `Buffer` state relevant to the claims below: the
line store and the modified flag.  `NumLines` is kept equal to
`len(b.lines)` by `Update` after every mutation, so it is modelled as
`lines.length`. -/
structure Buffer where
  lines : Lines
  isModified : Bool
deriving DecidableEq

/-- Source `Buffer.Line`: returns the empty string when
`n >= len(b.lines)`, else line `n`'s bytes (as a Go string, i.e. the
same byte sequence). -/
def Buffer.Line (b : Buffer) (n : Nat) : Bytes :=
  if b.lines.length ≤ n then [] else lineData b.lines n

/-- Source `Buffer.LineBytes`: returns the empty byte slice when
`n >= len(b.lines)`, else line `n`'s bytes. -/
def Buffer.LineBytes (b : Buffer) (n : Nat) : Bytes :=
  if b.lines.length ≤ n then [] else lineData b.lines n

/-- Modelled from the spec: the Edit Engine entry point
`Insert(location, text)`.  The EventHandler carrying the capital-case
`Insert` is not part of the provided sources; per spec §4.2 it
delegates the splice to the LineStore (`b.insert`, which is in the
sources: it sets `IsModified`, calls `LineArray.insert` and recomputes
the line count), plus undo recording and highlight invalidation, which
do not affect the lines or the modified flag and are outside this
model. -/
def Buffer.Insert (b : Buffer) (pos : Loc) (value : Bytes) : Buffer :=
  { lines := Micro.insert pos value b.lines, isModified := true }

/-- Modelled from the spec: the Edit Engine entry point
`Remove(start, end)`; as with `Buffer.Insert`, the content effect is
the source's `b.remove` (set `IsModified`, `LineArray.remove`,
recompute line count). -/
def Buffer.Remove (b : Buffer) (start stop : Loc) : Buffer :=
  { lines := (removeRange start stop b.lines).2, isModified := true }

/-- Source `MoveLinesUp`: guarded by
`start < 1 || start >= end || end > len(b.lines)` (early return);
otherwise inserts a copy of line `start-1` below the range (at the end
of line `end-1` when the range touches the last line, at the start of
line `end` otherwise) and removes the original line `start-1`. -/
def Buffer.MoveLinesUp (b : Buffer) (start stop : Int) : Buffer :=
  if start < 1 ∨ start ≥ stop ∨ stop > (b.lines.length : Int) then b
  else
    (if stop = (b.lines.length : Int) then
      b.Insert
        ⟨runeCount (lineData b.lines (stop - 1).toNat), (stop - 1).toNat⟩
        (10 :: b.Line (start - 1).toNat)
    else
      b.Insert ⟨0, stop.toNat⟩
        (b.Line (start - 1).toNat ++ [10])).Remove
      ⟨0, (start - 1).toNat⟩ ⟨0, start.toNat⟩

/-- Source `MoveLinesDown`: guarded by
`start < 0 || start >= end || end >= len(b.lines)-1` (early return);
otherwise inserts a copy of line `end` above the range and removes the
original (shifted) line `end+1`. -/
def Buffer.MoveLinesDown (b : Buffer) (start stop : Int) : Buffer :=
  if start < 0 ∨ start ≥ stop ∨ stop ≥ (b.lines.length : Int) - 1 then b
  else
    (b.Insert ⟨0, start.toNat⟩ (b.Line stop.toNat ++ [10])).Remove
      ⟨0, (stop + 1).toNat⟩ ⟨0, (stop + 2).toNat⟩

/-- C9: reading past the end of the buffer through the public
accessors is total — for every line index at or past the line count,
`Line` returns the empty string and `LineBytes` the empty byte
slice. -/
theorem claim_C9_out_of_range_reads (b : Buffer) (n : Nat)
    (h : b.lines.length ≤ n) :
    b.Line n = [] ∧ b.LineBytes n = [] := by
  constructor
  · rw [Buffer.Line, if_pos h]
  · rw [Buffer.LineBytes, if_pos h]

/-- Witness for C9: reading line 5 of a one-line buffer. -/
theorem claim_C9_witness :
    (Buffer.mk [dfltLine] false).lines.length ≤ 5 ∧
      ((Buffer.mk [dfltLine] false).Line 5 = [] ∧
        (Buffer.mk [dfltLine] false).LineBytes 5 = []) :=
  ⟨by decide, claim_C9_out_of_range_reads (Buffer.mk [dfltLine] false) 5
    (by decide)⟩

/-- C10: `MoveLinesUp` leaves the buffer entirely unchanged whenever
`start < 1`, `start >= end` or `end > len(lines)`, and `MoveLinesDown`
leaves it unchanged whenever `start < 0`, `start >= end` or
`end >= len(lines) - 1`; in particular `MoveLinesDown` never moves a
range whose `end` sits at the last line. -/
theorem claim_C10_movelines_guards (b : Buffer) (start stop : Int) :
    ((start < 1 ∨ start ≥ stop ∨ stop > (b.lines.length : Int)) →
      b.MoveLinesUp start stop = b) ∧
    ((start < 0 ∨ start ≥ stop ∨ stop ≥ (b.lines.length : Int) - 1) →
      b.MoveLinesDown start stop = b) ∧
    (stop = (b.lines.length : Int) - 1 →
      b.MoveLinesDown start stop = b) := by
  refine ⟨fun h => ?_, fun h => ?_, fun h => ?_⟩
  · rw [Buffer.MoveLinesUp, if_pos h]
  · rw [Buffer.MoveLinesDown, if_pos h]
  · rw [Buffer.MoveLinesDown, if_pos (Or.inr (Or.inr (by omega)))]

/-- Witness for C10 on a three-line buffer: an up-move with
`start = 0`, a down-move with `start = -1`, and a down-move whose range
ends at the last line are all no-ops. -/
theorem claim_C10_witness :
    ((0 : Int) < 1 ∨ (0 : Int) ≥ 2 ∨
        (2 : Int) > ((Buffer.mk [dfltLine, dfltLine, dfltLine]
          false).lines.length : Int)) ∧
      (Buffer.mk [dfltLine, dfltLine, dfltLine] false).MoveLinesUp 0 2 =
        Buffer.mk [dfltLine, dfltLine, dfltLine] false ∧
      (Buffer.mk [dfltLine, dfltLine, dfltLine] false).MoveLinesDown (-1) 1 =
        Buffer.mk [dfltLine, dfltLine, dfltLine] false ∧
      (Buffer.mk [dfltLine, dfltLine, dfltLine] false).MoveLinesDown 0 2 =
        Buffer.mk [dfltLine, dfltLine, dfltLine] false :=
  ⟨by decide,
    (claim_C10_movelines_guards (Buffer.mk [dfltLine, dfltLine, dfltLine]
      false) 0 2).1 (by decide),
    (claim_C10_movelines_guards (Buffer.mk [dfltLine, dfltLine, dfltLine]
      false) (-1) 1).2.1 (by decide),
    (claim_C10_movelines_guards (Buffer.mk [dfltLine, dfltLine, dfltLine]
      false) 0 2).2.2 (by decide)⟩

/-- Rune-level view of the buffer for `FindMatchingBrace`: the source
reads lines only through `LineRunes` (the UTF-8 decoding of the line
bytes into rune values, `b.NumLines = len(b.lines)` rows), so the
model takes the decoded rune rows directly. -/
abbrev RLines := List (List Nat)

/-- The rune at location `(x, y)`. -/
def charAt (rl : RLines) (x y : Nat) : Nat := (rl.getD y []).getD x 0

/-- Inner forward loop of source `FindMatchingBrace` over one line's
runes from index `x` rightward (the first argument is the line's rune
suffix starting at `x`): the opening brace increments the nesting
counter, the closing brace decrements it and the loop returns the
location where the counter reaches 0. -/
def scanLineF (bo bc : Nat) : List Nat → Nat → Nat → Int → Option Loc × Int
  | [], _, _, i => (none, i)
  | r :: rest, x, y, i =>
    if r = bo then scanLineF bo bc rest (x + 1) y (i + 1)
    else if r = bc then
      if i - 1 = 0 then (some ⟨x, y⟩, i - 1)
      else scanLineF bo bc rest (x + 1) y (i - 1)
    else scanLineF bo bc rest (x + 1) y i

/-- Outer forward loop of source `FindMatchingBrace` over the whole
lines below the start line, carrying the nesting counter across
lines. -/
def scanLinesF (bo bc : Nat) : List (List Nat) → Nat → Int → Option Loc
  | [], _, _ => none
  | l :: ls, y, i =>
    match scanLineF bo bc l 0 y i with
    | (some loc, _) => some loc
    | (none, j) => scanLinesF bo bc ls (y + 1) j

/-- The forward scan of source `FindMatchingBrace`, starting at
`(x, y)` inclusive and bounded by the end of the buffer. -/
def findForward (bo bc : Nat) (x y : Nat) (rl : RLines) : Option Loc :=
  match scanLineF bo bc ((rl.getD y []).drop x) x y 0 with
  | (some loc, _) => some loc
  | (none, j) => scanLinesF bo bc (rl.drop (y + 1)) (y + 1) j

/-- Inner backward loop of source `FindMatchingBrace` over one line's
runes from index `x` leftward (the first argument carries those runes
in scan order, i.e. the line's prefix through `x` reversed): the
closing brace increments the counter, the opening brace decrements it
and the loop returns the location where the counter reaches 0. -/
def scanLineB (bo bc : Nat) : List Nat → Nat → Nat → Int → Option Loc × Int
  | [], _, _, i => (none, i)
  | r :: rest, x, y, i =>
    if r = bo then
      if i - 1 = 0 then (some ⟨x, y⟩, i - 1)
      else scanLineB bo bc rest (x - 1) y (i - 1)
    else if r = bc then scanLineB bo bc rest (x - 1) y (i + 1)
    else scanLineB bo bc rest (x - 1) y i

/-- Outer backward loop of source `FindMatchingBrace` over the whole
lines above the start line (supplied in reverse order), each scanned
from its last rune leftward. -/
def scanLinesB (bo bc : Nat) : List (List Nat) → Nat → Int → Option Loc
  | [], _, _ => none
  | l :: ls, y, i =>
    match scanLineB bo bc l.reverse (l.length - 1) y i with
    | (some loc, _) => some loc
    | (none, j) => scanLinesB bo bc ls (y - 1) j

/-- The backward scan of source `FindMatchingBrace`, starting at
`(x, y)` inclusive and bounded by the start of the buffer. -/
def findBackward (bo bc : Nat) (x y : Nat) (rl : RLines) : Option Loc :=
  match scanLineB bo bc (((rl.getD y []).take (x + 1)).reverse) x y 0 with
  | (some loc, _) => some loc
  | (none, j) => scanLinesB bo bc ((rl.take y).reverse) (y - 1) j

/-- Source `FindMatchingBrace`: if the rune at the start location is
the opening brace, scan forward; if it is the closing brace, scan
backward; return the balancing location, or the start location when
the scan finds none before the buffer boundary (or the start rune is
neither brace). -/
def FindMatchingBrace (bo bc : Nat) (start : Loc) (rl : RLines) : Loc :=
  if charAt rl start.X start.Y = bo then
    (findForward bo bc start.X start.Y rl).getD start
  else if charAt rl start.X start.Y = bc then
    (findBackward bo bc start.X start.Y rl).getD start
  else start

/-- Contribution of one rune to the forward nesting counter. -/
def braceVal (bo bc r : Nat) : Int :=
  if r = bo then 1 else if r = bc then -1 else 0

/-- Contribution of one rune to the backward nesting counter. -/
def braceValB (bo bc r : Nat) : Int :=
  if r = bo then -1 else if r = bc then 1 else 0

/-- Total forward counter change over a position-annotated stream. -/
def sumVal (bo bc : Nat) (S : List (Loc × Nat)) : Int :=
  (S.map (fun e => braceVal bo bc e.2)).sum

/-- Total backward counter change over a position-annotated stream. -/
def sumValB (bo bc : Nat) (S : List (Loc × Nat)) : Int :=
  (S.map (fun e => braceValB bo bc e.2)).sum

/-- One-dimensional form of the forward scan, over a single stream of
position-annotated runes. -/
def scan1F (bo bc : Nat) : List (Loc × Nat) → Int → Option Loc × Int
  | [], i => (none, i)
  | (p, r) :: rest, i =>
    if r = bo then scan1F bo bc rest (i + 1)
    else if r = bc then
      if i - 1 = 0 then (some p, i - 1) else scan1F bo bc rest (i - 1)
    else scan1F bo bc rest i

/-- One-dimensional form of the backward scan. -/
def scan1B (bo bc : Nat) : List (Loc × Nat) → Int → Option Loc × Int
  | [], i => (none, i)
  | (p, r) :: rest, i =>
    if r = bo then
      if i - 1 = 0 then (some p, i - 1) else scan1B bo bc rest (i - 1)
    else if r = bc then scan1B bo bc rest (i + 1)
    else scan1B bo bc rest i

/-- The runes of one line annotated with ascending positions from
`(x, y)`. -/
def lineStream (x y : Nat) : List Nat → List (Loc × Nat)
  | [] => []
  | r :: rest => (⟨x, y⟩, r) :: lineStream (x + 1) y rest

/-- The runes of a run of lines annotated with their positions, in
reading order, the first line numbered `y`. -/
def lsStream (y : Nat) : List (List Nat) → List (Loc × Nat)
  | [] => []
  | l :: ls => lineStream 0 y l ++ lsStream (y + 1) ls

/-- The runes of one line annotated with descending positions from
`(x, y)`. -/
def lineStreamDown (x y : Nat) : List Nat → List (Loc × Nat)
  | [] => []
  | r :: rest => (⟨x, y⟩, r) :: lineStreamDown (x - 1) y rest

/-- Reverse-order analogue of `lsStream` for the backward outer loop:
each line (supplied reversed) is annotated right to left, lines
numbered downward from `y`. -/
def lsStreamDown (y : Nat) : List (List Nat) → List (Loc × Nat)
  | [] => []
  | l :: ls => lineStreamDown (l.length - 1) y l.reverse ++ lsStreamDown (y - 1) ls

theorem scan1F_append_some (bo bc : Nat) (S T : List (Loc × Nat))
    (i j : Int) (p : Loc) (h : scan1F bo bc S i = (some p, j)) :
    scan1F bo bc (S ++ T) i = (some p, j) := by
  induction S generalizing i with
  | nil => simp [scan1F] at h
  | cons e S ih =>
    obtain ⟨q, r⟩ := e
    simp only [scan1F, List.cons_append] at h ⊢
    split_ifs at h ⊢ <;> first | exact h | exact ih _ h

theorem scan1F_append_none (bo bc : Nat) (S T : List (Loc × Nat))
    (i j : Int) (h : scan1F bo bc S i = (none, j)) :
    scan1F bo bc (S ++ T) i = scan1F bo bc T j := by
  induction S generalizing i with
  | nil =>
    simp only [scan1F, Prod.mk.injEq] at h
    rw [List.nil_append, h.2]
  | cons e S ih =>
    obtain ⟨q, r⟩ := e
    simp only [scan1F, List.cons_append] at h ⊢
    split_ifs at h ⊢ <;> first | exact ih _ h | simp at h

theorem scan1B_append_some (bo bc : Nat) (S T : List (Loc × Nat))
    (i j : Int) (p : Loc) (h : scan1B bo bc S i = (some p, j)) :
    scan1B bo bc (S ++ T) i = (some p, j) := by
  induction S generalizing i with
  | nil => simp [scan1B] at h
  | cons e S ih =>
    obtain ⟨q, r⟩ := e
    simp only [scan1B, List.cons_append] at h ⊢
    split_ifs at h ⊢ <;> first | exact h | exact ih _ h

theorem scan1B_append_none (bo bc : Nat) (S T : List (Loc × Nat))
    (i j : Int) (h : scan1B bo bc S i = (none, j)) :
    scan1B bo bc (S ++ T) i = scan1B bo bc T j := by
  induction S generalizing i with
  | nil =>
    simp only [scan1B, Prod.mk.injEq] at h
    rw [List.nil_append, h.2]
  | cons e S ih =>
    obtain ⟨q, r⟩ := e
    simp only [scan1B, List.cons_append] at h ⊢
    split_ifs at h ⊢ <;> first | exact ih _ h | simp at h

theorem scanLineF_eq_scan1F (bo bc : Nat) (l : List Nat) (x y : Nat)
    (i : Int) :
    scanLineF bo bc l x y i = scan1F bo bc (lineStream x y l) i := by
  induction l generalizing x i with
  | nil => rfl
  | cons r rest ih =>
    simp only [scanLineF, lineStream, scan1F]
    split_ifs <;> first | rfl | exact ih _ _

theorem scanLinesF_eq_scan1F (bo bc : Nat) (ls : List (List Nat))
    (y : Nat) (i : Int) :
    scanLinesF bo bc ls y i = (scan1F bo bc (lsStream y ls) i).1 := by
  induction ls generalizing y i with
  | nil => rfl
  | cons l ls ih =>
    simp only [scanLinesF, lsStream]
    rw [scanLineF_eq_scan1F]
    rcases h : scan1F bo bc (lineStream 0 y l) i with ⟨o, j⟩
    cases o with
    | some p =>
      rw [scan1F_append_some bo bc _ _ _ _ _ h]
    | none =>
      rw [scan1F_append_none bo bc _ _ _ _ h]
      exact ih (y + 1) j

theorem findForward_eq_scan1F (bo bc : Nat) (x y : Nat) (rl : RLines) :
    findForward bo bc x y rl =
      (scan1F bo bc (lineStream x y ((rl.getD y []).drop x) ++
        lsStream (y + 1) (rl.drop (y + 1))) 0).1 := by
  simp only [findForward]
  rw [scanLineF_eq_scan1F]
  rcases h : scan1F bo bc (lineStream x y ((rl.getD y []).drop x)) 0
    with ⟨o, j⟩
  cases o with
  | some p =>
    rw [scan1F_append_some bo bc _ _ _ _ _ h]
  | none =>
    rw [scan1F_append_none bo bc _ _ _ _ h]
    exact scanLinesF_eq_scan1F bo bc _ (y + 1) j

theorem scanLineB_eq_scan1B (bo bc : Nat) (l : List Nat) (x y : Nat)
    (i : Int) :
    scanLineB bo bc l x y i = scan1B bo bc (lineStreamDown x y l) i := by
  induction l generalizing x i with
  | nil => rfl
  | cons r rest ih =>
    simp only [scanLineB, lineStreamDown, scan1B]
    split_ifs <;> first | rfl | exact ih _ _

theorem scanLinesB_eq_scan1B (bo bc : Nat) (ls : List (List Nat))
    (y : Nat) (i : Int) :
    scanLinesB bo bc ls y i = (scan1B bo bc (lsStreamDown y ls) i).1 := by
  induction ls generalizing y i with
  | nil => rfl
  | cons l ls ih =>
    simp only [scanLinesB, lsStreamDown]
    rw [scanLineB_eq_scan1B]
    rcases h : scan1B bo bc (lineStreamDown (l.length - 1) y l.reverse) i
      with ⟨o, j⟩
    cases o with
    | some p =>
      rw [scan1B_append_some bo bc _ _ _ _ _ h]
    | none =>
      rw [scan1B_append_none bo bc _ _ _ _ h]
      exact ih (y - 1) j

theorem findBackward_eq_scan1B (bo bc : Nat) (x y : Nat) (rl : RLines) :
    findBackward bo bc x y rl =
      (scan1B bo bc
        (lineStreamDown x y (((rl.getD y []).take (x + 1)).reverse) ++
          lsStreamDown (y - 1) ((rl.take y).reverse)) 0).1 := by
  simp only [findBackward]
  rw [scanLineB_eq_scan1B]
  rcases h : scan1B bo bc
      (lineStreamDown x y (((rl.getD y []).take (x + 1)).reverse)) 0
    with ⟨o, j⟩
  cases o with
  | some p =>
    rw [scan1B_append_some bo bc _ _ _ _ _ h]
  | none =>
    rw [scan1B_append_none bo bc _ _ _ _ h]
    exact scanLinesB_eq_scan1B bo bc _ (y - 1) j

theorem lineStream_append (x y : Nat) (r s : List Nat) :
    lineStream x y (r ++ s) =
      lineStream x y r ++ lineStream (x + r.length) y s := by
  induction r generalizing x with
  | nil => simp [lineStream]
  | cons a r ih =>
    simp only [List.cons_append, lineStream, List.length_cons,
      List.append_eq]
    rw [ih (x + 1)]
    rw [show x + 1 + r.length = x + (r.length + 1) from by omega]

theorem lsStream_append (y : Nat) (P Q : List (List Nat)) :
    lsStream y (P ++ Q) = lsStream y P ++ lsStream (y + P.length) Q := by
  induction P generalizing y with
  | nil => simp [lsStream]
  | cons l P ih =>
    simp only [List.cons_append, lsStream, List.length_cons,
      List.append_eq, List.append_assoc]
    rw [ih (y + 1)]
    rw [show y + 1 + P.length = y + (P.length + 1) from by omega]

theorem lineStreamDown_append (x y : Nat) (r s : List Nat) :
    lineStreamDown x y (r ++ s) =
      lineStreamDown x y r ++ lineStreamDown (x - r.length) y s := by
  induction r generalizing x with
  | nil => simp [lineStreamDown]
  | cons a r ih =>
    simp only [List.cons_append, lineStreamDown, List.length_cons,
      List.append_eq]
    rw [ih (x - 1)]
    rw [show x - 1 - r.length = x - (r.length + 1) from by omega]

theorem lineStreamDown_reverse (l : List Nat) (x0 y : Nat) :
    lineStreamDown (x0 + l.length - 1) y l.reverse =
      (lineStream x0 y l).reverse := by
  induction l generalizing x0 with
  | nil => rfl
  | cons a t ih =>
    have h1 : (a :: t).reverse = t.reverse ++ [a] := by simp
    rw [h1, lineStreamDown_append]
    have h2 : (a :: t).length = t.length + 1 := rfl
    rw [h2]
    have h3 : x0 + (t.length + 1) - 1 = x0 + 1 + t.length - 1 := by omega
    rw [h3, ih (x0 + 1)]
    have h4 : x0 + 1 + t.length - 1 - t.reverse.length = x0 := by
      simp only [List.length_reverse]
      omega
    rw [h4]
    simp [lineStream, lineStreamDown]

theorem lsStreamDown_reverse (L : List (List Nat)) (y0 : Nat) :
    lsStreamDown (y0 + L.length - 1) L.reverse = (lsStream y0 L).reverse := by
  induction L using List.reverseRecOn with
  | nil => rfl
  | append_singleton L l ih =>
    have h1 : (L ++ [l]).reverse = l :: L.reverse := by simp
    have h2 : y0 + (L ++ [l]).length - 1 = y0 + L.length := by
      simp only [List.length_append, List.length_singleton]
      omega
    rw [h1, h2]
    simp only [lsStreamDown]
    have h3 : lineStreamDown (l.length - 1) (y0 + L.length) l.reverse =
        (lineStream 0 (y0 + L.length) l).reverse := by
      have := lineStreamDown_reverse l 0 (y0 + L.length)
      rw [show (0 : Nat) + l.length - 1 = l.length - 1 from by omega] at this
      exact this
    rw [h3]
    rw [show y0 + L.length - 1 = y0 + L.length - 1 from rfl]
    rw [ih]
    rw [lsStream_append]
    simp [lsStream]

theorem sumVal_nil (bo bc : Nat) : sumVal bo bc [] = 0 := rfl

theorem sumVal_cons (bo bc : Nat) (e : Loc × Nat) (S : List (Loc × Nat)) :
    sumVal bo bc (e :: S) = braceVal bo bc e.2 + sumVal bo bc S := by
  simp [sumVal]

theorem sumVal_append (bo bc : Nat) (S T : List (Loc × Nat)) :
    sumVal bo bc (S ++ T) = sumVal bo bc S + sumVal bo bc T := by
  simp [sumVal]

theorem sumVal_reverse (bo bc : Nat) (S : List (Loc × Nat)) :
    sumVal bo bc S.reverse = sumVal bo bc S := by
  simp only [sumVal]
  rw [List.map_reverse, List.sum_reverse]

theorem sumVal_cons_pair (bo bc : Nat) (q : Loc) (r : Nat)
    (S : List (Loc × Nat)) :
    sumVal bo bc ((q, r) :: S) = braceVal bo bc r + sumVal bo bc S := by
  simp [sumVal]

theorem braceVal_op (bo bc : Nat) : braceVal bo bc bo = 1 := by
  simp [braceVal]

theorem braceVal_cl (bo bc : Nat) (h : bo ≠ bc) : braceVal bo bc bc = -1 := by
  simp only [braceVal]
  rw [if_neg (fun hh => h hh.symm)]
  simp

theorem braceVal_other (bo bc r : Nat) (h1 : r ≠ bo) (h2 : r ≠ bc) :
    braceVal bo bc r = 0 := by
  simp [braceVal, h1, h2]

theorem sumValB_eq_swap (bo bc : Nat) (h : bo ≠ bc)
    (S : List (Loc × Nat)) : sumValB bo bc S = sumVal bc bo S := by
  induction S with
  | nil => rfl
  | cons e S ih =>
    simp only [sumValB, sumVal, List.map_cons, List.sum_cons] at ih ⊢
    have he : braceValB bo bc e.2 = braceVal bc bo e.2 := by
      simp only [braceValB, braceVal]
      by_cases h1 : e.2 = bo
      · rw [if_pos h1, if_neg (by omega), if_pos h1]
      · by_cases h2 : e.2 = bc
        · rw [if_neg h1, if_pos h2, if_pos h2]
        · rw [if_neg h1, if_neg h2, if_neg h2, if_neg h1]
    rw [he, ih]

theorem scan1B_eq_swap (bo bc : Nat) (h : bo ≠ bc) :
    ∀ (S : List (Loc × Nat)) (i : Int),
      scan1B bo bc S i = scan1F bc bo S i := by
  intro S
  induction S with
  | nil => intro i; rfl
  | cons e S ih =>
    intro i
    obtain ⟨q, r⟩ := e
    simp only [scan1B, scan1F]
    by_cases h1 : r = bo
    · have h2 : ¬ r = bc := by rw [h1]; exact h
      rw [if_pos h1, if_neg h2, if_pos h1]
      split
      · rfl
      · exact ih _
    · by_cases h2 : r = bc
      · rw [if_neg h1, if_pos h2, if_pos h2]
        exact ih _
      · rw [if_neg h1, if_neg h2, if_neg h2, if_neg h1]
        exact ih _

/-- A successful forward scan decomposes its stream: the match is the
first position where the running nesting counter reaches zero, it
carries the closing rune, and the counter stays positive strictly
before it. -/
theorem scan1F_some_char (bo bc : Nat) (hop : bo ≠ bc) :
    ∀ (S : List (Loc × Nat)) (i : Int) (p : Loc) (f : Int), 1 ≤ i →
      scan1F bo bc S i = (some p, f) →
      ∃ A B r, S = A ++ (p, r) :: B ∧ r = bc ∧
        i + sumVal bo bc (A ++ [(p, r)]) = 0 ∧
        ∀ n ≤ A.length, 1 ≤ i + sumVal bo bc (A.take n) := by
  intro S
  induction S with
  | nil => intro i p f hi h; simp [scan1F] at h
  | cons e S ih =>
    intro i p f hi h
    obtain ⟨q, r⟩ := e
    simp only [scan1F] at h
    by_cases hbo : r = bo
    · rw [if_pos hbo] at h
      have hbv : braceVal bo bc r = 1 := by rw [hbo]; exact braceVal_op bo bc
      obtain ⟨A, B, r2, hS, hr2, hbal, hpos⟩ := ih (i + 1) p f (by omega) h
      refine ⟨(q, r) :: A, B, r2, by rw [hS, List.cons_append], hr2, ?_, ?_⟩
      · rw [List.cons_append, sumVal_cons_pair, hbv]
        omega
      · intro n hn
        cases n with
        | zero => simpa [sumVal_nil] using hi
        | succ n =>
          rw [List.take_succ_cons, sumVal_cons_pair, hbv]
          have := hpos n (by simpa using hn)
          omega
    · rw [if_neg hbo] at h
      by_cases hbc : r = bc
      · have hbv : braceVal bo bc r = -1 := by rw [hbc]; exact braceVal_cl bo bc hop
        rw [if_pos hbc] at h
        by_cases hz : i - 1 = 0
        · rw [if_pos hz] at h
          simp only [Prod.mk.injEq, Option.some.injEq] at h
          obtain ⟨hq, _⟩ := h
          subst hq
          refine ⟨[], S, r, rfl, hbc, ?_, ?_⟩
          · rw [List.nil_append, sumVal_cons_pair, sumVal_nil, hbv]
            omega
          · intro n hn
            have hn0 : n = 0 := by simpa using hn
            subst hn0
            simpa [sumVal_nil] using hi
        · rw [if_neg hz] at h
          obtain ⟨A, B, r2, hS, hr2, hbal, hpos⟩ := ih (i - 1) p f (by omega) h
          refine ⟨(q, r) :: A, B, r2, by rw [hS, List.cons_append], hr2, ?_, ?_⟩
          · rw [List.cons_append, sumVal_cons_pair, hbv]
            omega
          · intro n hn
            cases n with
            | zero => simpa [sumVal_nil] using hi
            | succ n =>
              rw [List.take_succ_cons, sumVal_cons_pair, hbv]
              have := hpos n (by simpa using hn)
              omega
      · have hbv : braceVal bo bc r = 0 := braceVal_other bo bc r hbo hbc
        rw [if_neg hbc] at h
        obtain ⟨A, B, r2, hS, hr2, hbal, hpos⟩ := ih i p f hi h
        refine ⟨(q, r) :: A, B, r2, by rw [hS, List.cons_append], hr2, ?_, ?_⟩
        · rw [List.cons_append, sumVal_cons_pair, hbv]
          omega
        · intro n hn
          cases n with
          | zero => simpa [sumVal_nil] using hi
          | succ n =>
            rw [List.take_succ_cons, sumVal_cons_pair, hbv]
            have := hpos n (by simpa using hn)
            omega

/-- A forward scan whose running counter stays positive on every
prefix returns nothing and ends with the counter shifted by the
stream's total value. -/
theorem scan1F_none_run (bo bc : Nat) (hop : bo ≠ bc) :
    ∀ (S : List (Loc × Nat)) (i : Int),
      (∀ n ≤ S.length, 1 ≤ i + sumVal bo bc (S.take n)) →
      scan1F bo bc S i = (none, i + sumVal bo bc S) := by
  intro S
  induction S with
  | nil =>
    intro i h
    rw [scan1F, sumVal_nil]
    rw [Int.add_zero]
  | cons e S ih =>
    intro i h
    obtain ⟨q, r⟩ := e
    have h0 : 1 ≤ i := by simpa [sumVal_nil] using h 0 (by omega)
    have h1 : 1 ≤ i + braceVal bo bc r := by
      have := h 1 (by simp only [List.length_cons]; omega)
      simpa [List.take_succ_cons, sumVal_cons_pair, sumVal_nil] using this
    simp only [scan1F]
    by_cases hbo : r = bo
    · have hbv : braceVal bo bc r = 1 := by rw [hbo]; exact braceVal_op bo bc
      rw [if_pos hbo]
      rw [ih (i + 1) ?_]
      · rw [sumVal_cons_pair, hbv, Prod.mk.injEq]
        exact ⟨rfl, by omega⟩
      · intro n hn
        have := h (n + 1) (by simp only [List.length_cons]; omega)
        rw [List.take_succ_cons, sumVal_cons_pair, hbv] at this
        omega
    · by_cases hbc : r = bc
      · have hbv : braceVal bo bc r = -1 := by rw [hbc]; exact braceVal_cl bo bc hop
        rw [hbv] at h1
        rw [if_neg hbo, if_pos hbc, if_neg (by omega : ¬ i - 1 = 0)]
        rw [ih (i - 1) ?_]
        · rw [sumVal_cons_pair, hbv, Prod.mk.injEq]
          exact ⟨rfl, by omega⟩
        · intro n hn
          have := h (n + 1) (by simp only [List.length_cons]; omega)
          rw [List.take_succ_cons, sumVal_cons_pair, hbv] at this
          omega
      · have hbv : braceVal bo bc r = 0 := braceVal_other bo bc r hbo hbc
        rw [if_neg hbo, if_neg hbc]
        rw [ih i ?_]
        · rw [sumVal_cons_pair, hbv, Prod.mk.injEq]
          exact ⟨rfl, by omega⟩
        · intro n hn
          have := h (n + 1) (by simp only [List.length_cons]; omega)
          rw [List.take_succ_cons, sumVal_cons_pair, hbv] at this
          omega

theorem braceVal_swap (b1 b2 : Nat) (h : b1 ≠ b2) (r : Nat) :
    braceVal b2 b1 r = -braceVal b1 b2 r := by
  by_cases h1 : r = b1
  · subst h1
    simp [braceVal, h]
  · by_cases h2 : r = b2
    · subst h2
      simp [braceVal, h1, Ne.symm h]
    · simp [braceVal, h1, h2]

theorem sumVal_swap (b1 b2 : Nat) (h : b1 ≠ b2) (S : List (Loc × Nat)) :
    sumVal b2 b1 S = -sumVal b1 b2 S := by
  induction S with
  | nil => simp [sumVal]
  | cons e S ih =>
    rw [sumVal_cons, sumVal_cons, braceVal_swap b1 b2 h, ih]
    omega

/-- Lexicographic order on buffer locations, row first. -/
def lexLt (p q : Loc) : Prop :=
  p.Y < q.Y ∨ (p.Y = q.Y ∧ p.X < q.X)

theorem lexLt_irrefl (p : Loc) : ¬ lexLt p p := by
  intro h
  rcases h with h | ⟨-, h⟩ <;> omega

theorem mem_lineStream : ∀ (l : List Nat) (x y : Nat) (e : Loc × Nat),
    e ∈ lineStream x y l →
    e.1.Y = y ∧ x ≤ e.1.X ∧ e.1.X < x + l.length ∧
      l.getD (e.1.X - x) 0 = e.2 := by
  intro l
  induction l with
  | nil => intro x y e h; simp [lineStream] at h
  | cons r rest ih =>
    intro x y e h
    simp only [lineStream, List.mem_cons] at h
    rcases h with h | h
    · subst h
      refine ⟨rfl, Nat.le_refl x, ?_, ?_⟩
      · simp only [List.length_cons]
        omega
      · simp
    · obtain ⟨h1, h2, h3, h4⟩ := ih (x + 1) y e h
      refine ⟨h1, by omega, ?_, ?_⟩
      · simp only [List.length_cons]
        omega
      · rw [show e.1.X - x = (e.1.X - (x + 1)) + 1 from by omega,
          List.getD_cons_succ]
        exact h4

theorem mem_lsStream : ∀ (ls : List (List Nat)) (y0 : Nat) (e : Loc × Nat),
    e ∈ lsStream y0 ls →
    y0 ≤ e.1.Y ∧ e.1.Y - y0 < ls.length ∧
      e.1.X < (ls.getD (e.1.Y - y0) []).length ∧
      (ls.getD (e.1.Y - y0) []).getD e.1.X 0 = e.2 := by
  intro ls
  induction ls with
  | nil => intro y0 e h; simp [lsStream] at h
  | cons l ls ih =>
    intro y0 e h
    simp only [lsStream, List.mem_append] at h
    rcases h with h | h
    · obtain ⟨h1, -, h3, h4⟩ := mem_lineStream l 0 y0 e h
      rw [h1, Nat.sub_self]
      simp only [List.getD_cons_zero, List.length_cons]
      refine ⟨Nat.le_refl _, by omega, ?_, ?_⟩
      · simpa using h3
      · simpa using h4
    · obtain ⟨h1, h2, h3, h4⟩ := ih (y0 + 1) e h
      have hY : e.1.Y - y0 = (e.1.Y - (y0 + 1)) + 1 := by omega
      rw [hY]
      simp only [List.getD_cons_succ, List.length_cons]
      exact ⟨by omega, by omega, h3, h4⟩

theorem pairwise_lineStream (l : List Nat) (x y : Nat) :
    (lineStream x y l).Pairwise (fun a b => lexLt a.1 b.1) := by
  induction l generalizing x with
  | nil => exact List.Pairwise.nil
  | cons r rest ih =>
    simp only [lineStream]
    refine List.Pairwise.cons ?_ (ih (x + 1))
    intro b hb
    obtain ⟨h1, h2, -, -⟩ := mem_lineStream rest (x + 1) y b hb
    exact Or.inr ⟨h1.symm, Nat.lt_of_lt_of_le (Nat.lt_succ_self x) h2⟩

theorem pairwise_lsStream (ls : List (List Nat)) (y0 : Nat) :
    (lsStream y0 ls).Pairwise (fun a b => lexLt a.1 b.1) := by
  induction ls generalizing y0 with
  | nil => exact List.Pairwise.nil
  | cons l ls ih =>
    simp only [lsStream]
    rw [List.pairwise_append]
    refine ⟨pairwise_lineStream l 0 y0, ih (y0 + 1), ?_⟩
    intro a ha b hb
    obtain ⟨h1, -, -, -⟩ := mem_lineStream l 0 y0 a ha
    obtain ⟨h2, -, -, -⟩ := mem_lsStream ls (y0 + 1) b hb
    exact Or.inl (by omega)

theorem pairwise_getD (R : Loc × Nat → Loc × Nat → Prop) :
    ∀ (l : List (Loc × Nat)), l.Pairwise R →
      ∀ (i j : Nat) (d : Loc × Nat), i < j → j < l.length →
        R (l.getD i d) (l.getD j d) := by
  intro l
  induction l with
  | nil => intro h i j d hij hj; simp at hj
  | cons e l ih =>
    intro h i j d hij hj
    obtain ⟨hhead, htail⟩ := List.pairwise_cons.mp h
    cases i with
    | zero =>
      cases j with
      | zero => omega
      | succ j =>
        simp only [List.getD_cons_zero, List.getD_cons_succ]
        have hj' : j < l.length := by simpa using hj
        have hmem : l.getD j d ∈ l := by
          rw [List.getD_eq_getElem l d hj']
          exact List.getElem_mem _
        exact hhead _ hmem
    | succ i =>
      cases j with
      | zero => omega
      | succ j =>
        simp only [List.getD_cons_succ]
        exact ih htail i j d (by omega) (by simpa using hj)

theorem stream_decomp_unique (l U V U2 V2 : List (Loc × Nat))
    (e e2 : Loc × Nat)
    (hpw : l.Pairwise (fun a b => lexLt a.1 b.1))
    (h1 : l = U ++ e :: V) (h2 : l = U2 ++ e2 :: V2) (he : e.1 = e2.1) :
    U = U2 ∧ e = e2 ∧ V = V2 := by
  have hU : U.length < l.length := by
    rw [h1, List.length_append, List.length_cons]; omega
  have hU2 : U2.length < l.length := by
    rw [h2, List.length_append, List.length_cons]; omega
  have he1 : l.getD U.length ((⟨0, 0⟩ : Loc), 0) = e := by
    rw [h1]; exact getD_append_len U e V _
  have he2 : l.getD U2.length ((⟨0, 0⟩ : Loc), 0) = e2 := by
    rw [h2]; exact getD_append_len U2 e2 V2 _
  have hlen : U.length = U2.length := by
    by_contra hne
    rcases Nat.lt_or_ge U.length U2.length with hlt | hge
    · have h6 := pairwise_getD _ l hpw U.length U2.length
        ((⟨0, 0⟩ : Loc), 0) hlt hU2
      rw [he1, he2, he] at h6
      exact lexLt_irrefl e2.1 h6
    · have hlt2 : U2.length < U.length := by omega
      have h6 := pairwise_getD _ l hpw U2.length U.length
        ((⟨0, 0⟩ : Loc), 0) hlt2 hU
      rw [he1, he2, he] at h6
      exact lexLt_irrefl e2.1 h6
  have hglue : U ++ e :: V = U2 ++ e2 :: V2 := by rw [← h1, ← h2]
  obtain ⟨hUU, hEV⟩ := List.append_inj hglue hlen
  obtain ⟨hE, hV⟩ := List.cons_eq_cons.mp hEV
  exact ⟨hUU, hE, hV⟩

theorem lsStream_split_at (rl : RLines) (px py : Nat) (hy : py < rl.length)
    (hx : px < (rl.getD py []).length) :
    lsStream 0 rl =
      (lsStream 0 (rl.take py) ++
          lineStream 0 py ((rl.getD py []).take px)) ++
        (⟨px, py⟩, (rl.getD py []).getD px 0) ::
          (lineStream (px + 1) py ((rl.getD py []).drop (px + 1)) ++
            lsStream (py + 1) (rl.drop (py + 1))) := by
  have hrow : rl.getD py [] :: rl.drop (py + 1) = rl.drop py := by
    rw [List.drop_eq_getElem_cons hy, List.getD_eq_getElem rl [] hy]
  have hrl : rl = rl.take py ++ rl.getD py [] :: rl.drop (py + 1) := by
    rw [hrow, List.take_append_drop]
  have hLrow : rl.getD py [] =
      (rl.getD py []).take px ++
        (rl.getD py []).getD px 0 :: (rl.getD py []).drop (px + 1) := by
    rw [show (rl.getD py []).getD px 0 :: (rl.getD py []).drop (px + 1) =
        (rl.getD py []).drop px from by
      rw [List.drop_eq_getElem_cons hx, List.getD_eq_getElem _ 0 hx]]
    rw [List.take_append_drop]
  conv_lhs => rw [hrl]
  rw [lsStream_append, List.length_take, Nat.min_eq_left (by omega),
    Nat.zero_add]
  simp only [lsStream]
  conv_lhs => rw [hLrow]
  rw [lineStream_append, List.length_take, Nat.min_eq_left (by omega),
    Nat.zero_add]
  simp only [lineStream]
  simp only [List.append_assoc, List.cons_append]

theorem streamF_shape (rl : RLines) (px py : Nat)
    (hx : px < (rl.getD py []).length) :
    lineStream px py ((rl.getD py []).drop px) ++
        lsStream (py + 1) (rl.drop (py + 1)) =
      (⟨px, py⟩, (rl.getD py []).getD px 0) ::
        (lineStream (px + 1) py ((rl.getD py []).drop (px + 1)) ++
          lsStream (py + 1) (rl.drop (py + 1))) := by
  have hd : (rl.getD py []).drop px =
      (rl.getD py []).getD px 0 :: (rl.getD py []).drop (px + 1) := by
    rw [List.drop_eq_getElem_cons hx, List.getD_eq_getElem _ 0 hx]
  rw [hd]
  simp only [lineStream, List.cons_append]

theorem streamB_shape (rl : RLines) (px py : Nat) (hy : py < rl.length)
    (hx : px < (rl.getD py []).length) :
    lineStreamDown px py (((rl.getD py []).take (px + 1)).reverse) ++
        lsStreamDown (py - 1) ((rl.take py).reverse) =
      (⟨px, py⟩, (rl.getD py []).getD px 0) ::
        (lsStream 0 (rl.take py) ++
          lineStream 0 py ((rl.getD py []).take px)).reverse := by
  have h1 : lineStreamDown px py (((rl.getD py []).take (px + 1)).reverse) =
      (lineStream 0 py ((rl.getD py []).take (px + 1))).reverse := by
    have h := lineStreamDown_reverse ((rl.getD py []).take (px + 1)) 0 py
    rw [List.length_take, Nat.min_eq_left (by omega), Nat.zero_add] at h
    exact h
  have h2 : lsStreamDown (py - 1) ((rl.take py).reverse) =
      (lsStream 0 (rl.take py)).reverse := by
    have h := lsStreamDown_reverse (rl.take py) 0
    rw [List.length_take, Nat.min_eq_left (by omega), Nat.zero_add] at h
    exact h
  rw [h1, h2, ← List.reverse_append]
  have ht : (rl.getD py []).take (px + 1) =
      (rl.getD py []).take px ++ [(rl.getD py []).getD px 0] := by
    rw [List.take_succ, List.getElem?_eq_getElem hx,
      List.getD_eq_getElem _ 0 hx]
    rfl
  rw [ht, lineStream_append, List.length_take, Nat.min_eq_left (by omega),
    Nat.zero_add]
  simp only [lineStream]
  rw [← List.append_assoc, List.reverse_append]
  simp

theorem scan1F_rev_none (b1 b2 : Nat) (h : b1 ≠ b2) (A : List (Loc × Nat))
    (htot : sumVal b1 b2 A = 0)
    (hpos : ∀ n ≤ A.length, 0 ≤ sumVal b1 b2 (A.take n)) :
    scan1F b2 b1 A.reverse 1 = (none, 1) := by
  have hrun := scan1F_none_run b2 b1 (fun hh => h hh.symm) A.reverse 1 ?_
  · rw [hrun]
    have hz : sumVal b2 b1 A.reverse = 0 := by
      rw [sumVal_reverse, sumVal_swap b1 b2 h]
      omega
    rw [hz, Int.add_zero]
  · intro n hn
    rw [List.length_reverse] at hn
    rw [List.take_reverse, sumVal_reverse, sumVal_swap b1 b2 h]
    have hsplit : sumVal b1 b2 (A.take (A.length - n)) +
        sumVal b1 b2 (A.drop (A.length - n)) = 0 := by
      rw [← sumVal_append, List.take_append_drop, htot]
    have hp := hpos (A.length - n) (by omega)
    omega

theorem scan1F_rev_core (b1 b2 : Nat) (h : b1 ≠ b2) (A T : List (Loc × Nat))
    (q : Loc) (htot : sumVal b1 b2 A = 0)
    (hpos : ∀ n ≤ A.length, 0 ≤ sumVal b1 b2 (A.take n)) :
    scan1F b2 b1 (A.reverse ++ (q, b1) :: T) 1 = (some q, 0) := by
  rw [scan1F_append_none b2 b1 _ _ _ _
    (scan1F_rev_none b1 b2 h A htot hpos)]
  simp [scan1F, h]

theorem scan1F_step_op (bo bc : Nat) (p : Loc) (S : List (Loc × Nat)) :
    scan1F bo bc ((p, bo) :: S) 0 = scan1F bo bc S 1 := by
  simp [scan1F]

theorem scan1B_step_cl (bo bc : Nat) (h : bo ≠ bc) (p : Loc)
    (S : List (Loc × Nat)) :
    scan1B bo bc ((p, bc) :: S) 0 = scan1B bo bc S 1 := by
  simp [scan1B, Ne.symm h]

theorem FMB_eval (bo bc : Nat) (px py : Nat) (rl : RLines) :
    FindMatchingBrace bo bc ⟨px, py⟩ rl =
      (if charAt rl px py = bo then
        (findForward bo bc px py rl).getD ⟨px, py⟩
      else if charAt rl px py = bc then
        (findBackward bo bc px py rl).getD ⟨px, py⟩
      else ⟨px, py⟩) := rfl

/-- C8: source `FindMatchingBrace` is symmetric and bounded by the
buffer. For a valid start location holding the opening brace, whenever
the forward scan finds the balancing closing brace, `FindMatchingBrace`
returns its location, that location holds the closing brace, and
`FindMatchingBrace` run there scans backward and returns the original
opening location; dually for a start holding the closing brace; and
whenever the scan finds no balancing brace before the buffer boundary,
the start location is returned unchanged. -/
theorem claim_C8_matching_brace_symmetric (bo bc : Nat) (rl : RLines)
    (x y : Nat) (hop : bo ≠ bc) (hy : y < rl.length)
    (hx : x < (rl.getD y []).length) :
    (charAt rl x y = bo →
      (∀ m, findForward bo bc x y rl = some m →
        FindMatchingBrace bo bc ⟨x, y⟩ rl = m ∧
        charAt rl m.X m.Y = bc ∧
        FindMatchingBrace bo bc m rl = ⟨x, y⟩) ∧
      (findForward bo bc x y rl = none →
        FindMatchingBrace bo bc ⟨x, y⟩ rl = ⟨x, y⟩)) ∧
    (charAt rl x y = bc →
      (∀ m, findBackward bo bc x y rl = some m →
        FindMatchingBrace bo bc ⟨x, y⟩ rl = m ∧
        charAt rl m.X m.Y = bo ∧
        FindMatchingBrace bo bc m rl = ⟨x, y⟩) ∧
      (findBackward bo bc x y rl = none →
        FindMatchingBrace bo bc ⟨x, y⟩ rl = ⟨x, y⟩)) := by
  constructor
  · intro hco
    have hco2 : (rl.getD y []).getD x 0 = bo := hco
    constructor
    · intro m hm
      have hFMBs : FindMatchingBrace bo bc ⟨x, y⟩ rl = m := by
        rw [FMB_eval, if_pos hco, hm]
        rfl
      rcases hsc : scan1F bo bc (lineStream x y ((rl.getD y []).drop x) ++
          lsStream (y + 1) (rl.drop (y + 1))) 0 with ⟨o, f⟩
      have hm2 := hm
      rw [findForward_eq_scan1F, hsc] at hm2
      have ho : o = some m := hm2
      subst ho
      rw [streamF_shape rl x y hx, hco2, scan1F_step_op bo bc] at hsc
      obtain ⟨A, B, r, hdec, hr, hbal, hposA⟩ :=
        scan1F_some_char bo bc hop _ 1 m f (le_refl 1) hsc
      rw [hr] at hdec hbal
      have htot : sumVal bo bc A = 0 := by
        rw [sumVal_append, sumVal_cons_pair, sumVal_nil,
          braceVal_cl bo bc hop] at hbal
        omega
      have hposA2 : ∀ n ≤ A.length, 0 ≤ sumVal bo bc (A.take n) := by
        intro n hn
        have hp := hposA n hn
        omega
      have hfull1 : lsStream 0 rl =
          ((lsStream 0 (rl.take y) ++
              lineStream 0 y ((rl.getD y []).take x)) ++
            (⟨x, y⟩, bo) :: A) ++ (m, bc) :: B := by
        rw [lsStream_split_at rl x y hy hx, hco2, hdec]
        simp only [List.append_assoc, List.cons_append]
      have hmem : (m, bc) ∈ lsStream 0 rl := by
        rw [hfull1]
        simp
      obtain ⟨-, hmY0, hmX0, hmc0⟩ := mem_lsStream rl 0 (m, bc) hmem
      have hmY : m.Y < rl.length := by simpa using hmY0
      have hmX : m.X < (rl.getD m.Y []).length := by simpa using hmX0
      have hmcD : (rl.getD m.Y []).getD m.X 0 = bc := by simpa using hmc0
      have hcm : charAt rl m.X m.Y = bc := hmcD
      have hfull2 := lsStream_split_at rl m.X m.Y hmY hmX
      rw [hmcD] at hfull2
      obtain ⟨hP, -, -⟩ := stream_decomp_unique (lsStream 0 rl) _ _ _ _
        (m, bc) (⟨m.X, m.Y⟩, bc) (pairwise_lsStream rl 0) hfull1 hfull2 rfl
      have hrev : ((lsStream 0 (rl.take y) ++
            lineStream 0 y ((rl.getD y []).take x)) ++
          (⟨x, y⟩, bo) :: A).reverse =
          A.reverse ++ (⟨x, y⟩, bo) ::
            (lsStream 0 (rl.take y) ++
              lineStream 0 y ((rl.getD y []).take x)).reverse := by
        rw [List.reverse_append, List.reverse_cons, List.append_assoc,
          List.singleton_append]
      have hFMBm : FindMatchingBrace bo bc m rl = ⟨x, y⟩ := by
        simp only [FindMatchingBrace]
        rw [if_neg (by rw [hcm]; exact fun hh => hop hh.symm),
          if_pos hcm, findBackward_eq_scan1B,
          streamB_shape rl m.X m.Y hmY hmX, hmcD, ← hP,
          scan1B_step_cl bo bc hop, hrev, scan1B_eq_swap bo bc hop,
          scan1F_rev_core bo bc hop A _ ⟨x, y⟩ htot hposA2]
        rfl
      exact ⟨hFMBs, hcm, hFMBm⟩
    · intro hnone
      rw [FMB_eval, if_pos hco, hnone]
      rfl
  · intro hcc
    have hcc2 : (rl.getD y []).getD x 0 = bc := hcc
    constructor
    · intro m hm
      have hFMBs : FindMatchingBrace bo bc ⟨x, y⟩ rl = m := by
        rw [FMB_eval, if_neg (by rw [hcc]; exact fun hh => hop hh.symm),
          if_pos hcc, hm]
        rfl
      rcases hsc : scan1B bo bc
          (lineStreamDown x y (((rl.getD y []).take (x + 1)).reverse) ++
            lsStreamDown (y - 1) ((rl.take y).reverse)) 0 with ⟨o, f⟩
      have hm2 := hm
      rw [findBackward_eq_scan1B, hsc] at hm2
      have ho : o = some m := hm2
      subst ho
      rw [streamB_shape rl x y hy hx, hcc2, scan1B_step_cl bo bc hop,
        scan1B_eq_swap bo bc hop] at hsc
      obtain ⟨A, B, r, hdec, hr, hbal, hposA⟩ :=
        scan1F_some_char bc bo (fun hh => hop hh.symm) _ 1 m f
          (le_refl 1) hsc
      rw [hr] at hdec hbal
      have htot : sumVal bc bo A = 0 := by
        rw [sumVal_append, sumVal_cons_pair, sumVal_nil,
          braceVal_cl bc bo (fun hh => hop hh.symm)] at hbal
        omega
      have hposA2 : ∀ n ≤ A.length, 0 ≤ sumVal bc bo (A.take n) := by
        intro n hn
        have hp := hposA n hn
        omega
      have hPxy : lsStream 0 (rl.take y) ++
          lineStream 0 y ((rl.getD y []).take x) =
          B.reverse ++ (m, bo) :: A.reverse := by
        have h5 := congrArg List.reverse hdec
        rw [List.reverse_reverse] at h5
        rw [h5, List.reverse_append, List.reverse_cons, List.append_assoc,
          List.singleton_append]
      have hfull1 : lsStream 0 rl =
          B.reverse ++ (m, bo) ::
            (A.reverse ++ (⟨x, y⟩, bc) ::
              (lineStream (x + 1) y ((rl.getD y []).drop (x + 1)) ++
                lsStream (y + 1) (rl.drop (y + 1)))) := by
        rw [lsStream_split_at rl x y hy hx, hcc2, hPxy]
        simp only [List.append_assoc, List.cons_append]
      have hmem : (m, bo) ∈ lsStream 0 rl := by
        rw [hfull1]
        simp
      obtain ⟨-, hmY0, hmX0, hmc0⟩ := mem_lsStream rl 0 (m, bo) hmem
      have hmY : m.Y < rl.length := by simpa using hmY0
      have hmX : m.X < (rl.getD m.Y []).length := by simpa using hmX0
      have hmcD : (rl.getD m.Y []).getD m.X 0 = bo := by simpa using hmc0
      have hcm : charAt rl m.X m.Y = bo := hmcD
      have hfull2 := lsStream_split_at rl m.X m.Y hmY hmX
      rw [hmcD] at hfull2
      obtain ⟨-, -, hQ⟩ := stream_decomp_unique (lsStream 0 rl) _ _ _ _
        (m, bo) (⟨m.X, m.Y⟩, bo) (pairwise_lsStream rl 0) hfull1 hfull2 rfl
      have hFMBm : FindMatchingBrace bo bc m rl = ⟨x, y⟩ := by
        simp only [FindMatchingBrace]
        rw [if_pos hcm, findForward_eq_scan1F,
          streamF_shape rl m.X m.Y hmX, hmcD, scan1F_step_op bo bc, ← hQ,
          scan1F_rev_core bc bo (fun hh => hop hh.symm) A _ ⟨x, y⟩ htot
            hposA2]
        rfl
      exact ⟨hFMBs, hcm, hFMBm⟩
    · intro hnone
      rw [FMB_eval, if_neg (by rw [hcc]; exact fun hh => hop hh.symm),
        if_pos hcc, hnone]
      rfl

/-- Witness for C8 over the rune rows of a single line holding the
parenthesis pair: forward from the opening parenthesis at column 0
matches column 1, and backward from there returns to column 0. -/
theorem claim_C8_witness :
    ((40 : Nat) ≠ 41 ∧ 0 < ([[40, 41]] : RLines).length ∧
      0 < (([[40, 41]] : RLines).getD 0 []).length ∧
      charAt [[40, 41]] 0 0 = 40 ∧
      findForward 40 41 0 0 [[40, 41]] = some ⟨1, 0⟩) ∧
    (FindMatchingBrace 40 41 ⟨0, 0⟩ [[40, 41]] = ⟨1, 0⟩ ∧
      charAt [[40, 41]] 1 0 = 41 ∧
      FindMatchingBrace 40 41 ⟨1, 0⟩ [[40, 41]] = ⟨0, 0⟩) :=
  ⟨⟨by decide, by decide, by decide, by decide, by decide⟩,
    ((claim_C8_matching_brace_symmetric 40 41 [[40, 41]] 0 0 (by decide)
        (by decide) (by decide)).1 (by decide)).1 ⟨1, 0⟩ (by decide)⟩
